import Mathlib

/-!
Shallow embedding of the kvstore repository (github.com/SirCodeKnight/kvstore)
for checking its natural-language specification.

Translated components:
* `internal/storage` (and the storage part of `cmd/server/main.go`):
  `Value`, `MemoryStorage` (volatile backend), `DiskStorage` (durable backend).
  Go maps are embedded as association lists; the wall clock `time.Now().UnixNano()`
  is passed explicitly as a `now : Nat` parameter; filesystem contents of the
  durable backend are embedded as a second association list (one entry per file).
* `internal/raft/fsm.go`: `Command`, `FSM.Apply` dispatch, `FSM.Snapshot`,
  `FSM.Restore`.
* `internal/raft/node.go`: the role check of `Node.Set` / `Node.Delete`;
  the hashicorp consensus engine itself is third-party and is abstracted as a
  function argument standing for `raft.Apply`.
* `pkg/consistenthash/consistenthash.go`: the hash ring `Map` (here `HMap`),
  with `Add`, `Remove`, `Get`, `GetAll`; `sort.Ints` is embedded as insertion
  sort, and `sort.Search` (binary search for the leftmost index satisfying a
  monotone predicate, per its contract) as the first element `≥ hash`.
-/

namespace KVStore

/-! ### Storage data model (cmd/server/main.go, storage part) -/

/-- Go `storage.Value`: raw bytes plus an absolute expiration timestamp in
nanoseconds; `0` means "never expires". Reachable expirations are `UnixNano`
values, hence non-negative, so the timestamp is embedded as `Nat`. -/
structure Value where
  data : List Nat
  expiration : Nat
deriving DecidableEq

/-- Storage-level errors: `ErrKeyNotFound`, `ErrKeyExpired`, and a disk I/O
write fault for the durable backend. -/
inductive StErr where
  | NotFound
  | Expired
  | IOFailure
deriving DecidableEq

/-- Go condition `value.Expiration > 0 && value.Expiration < time.Now().UnixNano()`. -/
def Value.expired (v : Value) (now : Nat) : Bool :=
  decide (0 < v.expiration ∧ v.expiration < now)

/-- A Go `map[string]Value` embedded as an association list. -/
abbrev Store : Type := List (String × Value)

/-- Go map read `val, ok := m.data[key]`. -/
def lookupKV : Store → String → Option Value
  | [], _ => none
  | (k', v) :: rest, k => if k' = k then some v else lookupKV rest k

/-- Go map write `m.data[key] = value`: overwrite in place, append if absent. -/
def setEntry : Store → String → Value → Store
  | [], k, v => [(k, v)]
  | (k', v') :: rest, k, v =>
      if k' = k then (k, v) :: rest else (k', v') :: setEntry rest k v

/-- Go map removal `delete(m.data, key)`. -/
def deleteEntry : Store → String → Store
  | [], _ => []
  | (k', v') :: rest, k =>
      if k' = k then deleteEntry rest k else (k', v') :: deleteEntry rest k

/-! ### MemoryStorage (volatile backend) -/

/-- `MemoryStorage.Get`: `NotFound` if absent; if present but expired, lazily
delete the entry and return `Expired`; otherwise return the value. The
returned `Store` is the post-call state of `m.data`. -/
def MemoryStorage.Get (s : Store) (k : String) (now : Nat) :
    Except StErr Value × Store :=
  match lookupKV s k with
  | none => (Except.error StErr.NotFound, s)
  | some v =>
      if v.expired now then (Except.error StErr.Expired, deleteEntry s k)
      else (Except.ok v, s)

/-- `MemoryStorage.Set`: unconditional overwrite, never fails. -/
def MemoryStorage.Set (s : Store) (k : String) (v : Value) : Store :=
  setEntry s k v

/-- `MemoryStorage.Delete`: removing an absent key is not an error. -/
def MemoryStorage.Delete (s : Store) (k : String) : Store :=
  deleteEntry s k

/-- `MemoryStorage.Has`: present and not expired (no lazy delete here). -/
def MemoryStorage.Has (s : Store) (k : String) (now : Nat) : Bool :=
  match lookupKV s k with
  | none => false
  | some v => !(v.expired now)

/-- `MemoryStorage.Keys`: keys of the non-expired entries; reads only. -/
def MemoryStorage.Keys (s : Store) (now : Nat) : List String :=
  (s.filter (fun e => !(e.2.expired now))).map Prod.fst

/-- `MemoryStorage.Keys` as a state transformer: the source only reads the
map under the read lock, so the store is returned unchanged. -/
def MemoryStorage.KeysOp (s : Store) (now : Nat) : List String × Store :=
  (MemoryStorage.Keys s now, s)

/-- `MemoryStorage.Clear`: replace the map with a fresh empty one. -/
def MemoryStorage.Clear (_ : Store) : Store := []

/-! ### DiskStorage (durable backend, internal/storage/disk_storage.go)

The directory of one-file-per-key records is embedded as a second association
list `disk`; `os.ReadFile` on an absent path is the `NotFound` branch, other
read faults and unmarshalling faults are not modelled (the corresponding
files are simply absent from `disk`), and the success of `os.WriteFile` in
`Set` is an explicit `diskOk : Bool` parameter. -/

structure DStore where
  mem : Store
  disk : Store
deriving DecidableEq

/-- `DiskStorage.Delete`: remove from the memory cache, then remove the file
(absence is not an error). -/
def DiskStorage.Delete (d : DStore) (k : String) : DStore :=
  { mem := deleteEntry d.mem k, disk := deleteEntry d.disk k }

/-- `DiskStorage.Get`: try the cache; on any cache miss (absent or expired)
read the file; absent file is `NotFound`; an expired file is deleted from
both cache and disk and reported `Expired`; otherwise the cache is refreshed
and the value returned. -/
def DiskStorage.Get (d : DStore) (k : String) (now : Nat) :
    Except StErr Value × DStore :=
  match MemoryStorage.Get d.mem k now with
  | (Except.ok v, m') => (Except.ok v, { d with mem := m' })
  | (Except.error _, m') =>
      match lookupKV d.disk k with
      | none => (Except.error StErr.NotFound, { d with mem := m' })
      | some v =>
          if v.expired now then
            (Except.error StErr.Expired,
             DiskStorage.Delete { d with mem := m' } k)
          else
            (Except.ok v, { d with mem := setEntry m' k v })

/-- `DiskStorage.Set`: write the cache first, then the file; a failed
`os.WriteFile` (`diskOk = false`) returns the I/O error with the cache
already updated and the file untouched. -/
def DiskStorage.Set (d : DStore) (k : String) (v : Value) (diskOk : Bool) :
    Option StErr × DStore :=
  let m' := setEntry d.mem k v
  if diskOk then (none, { mem := m', disk := setEntry d.disk k v })
  else (some StErr.IOFailure, { mem := m', disk := d.disk })

/-- `DiskStorage.Has`: cache hit wins; otherwise consult the file, deleting
an expired one (reporting absent) and caching a live one. -/
def DiskStorage.Has (d : DStore) (k : String) (now : Nat) : Bool × DStore :=
  if MemoryStorage.Has d.mem k now then (true, d)
  else
    match lookupKV d.disk k with
    | none => (false, d)
    | some v =>
        if v.expired now then (false, DiskStorage.Delete d k)
        else (true, { d with mem := setEntry d.mem k v })

/-- `DiskStorage.loadFromDisk`: scan the directory listing taken at entry;
delete each expired file, cache each live one. -/
def DiskStorage.loadFromDisk (d : DStore) (now : Nat) : DStore :=
  d.disk.foldl
    (fun acc e =>
      if e.2.expired now then { acc with disk := deleteEntry acc.disk e.1 }
      else { acc with mem := setEntry acc.mem e.1 e.2 })
    d

/-- `DiskStorage.Keys`: refresh from disk, then list the cache's non-expired
keys. -/
def DiskStorage.Keys (d : DStore) (now : Nat) : List String × DStore :=
  let d' := DiskStorage.loadFromDisk d now
  (MemoryStorage.Keys d'.mem now, d')

/-! ### FSM (internal/raft/fsm.go)

`FSM.Apply` receives a log entry whose `Data` bytes decode to a `Command`;
the decoded command is embedded directly. The store driven by the FSM is the
volatile backend model. -/

/-- The replicated `Command`: `{op, key, value}` with op one of
"set", "delete", "deleteAll" (anything else hits the default branch). -/
structure Command where
  op : String
  key : String
  value : Value
deriving DecidableEq

/-- The dispatch of `FSM.Apply` on a decoded command: "set" → `Set`,
"delete" → `Delete`, "deleteAll" → `Clear`; an unknown op only logs and
leaves the store unchanged. -/
def FSM.applyCmd (s : Store) (c : Command) : Store :=
  if c.op = "set" then MemoryStorage.Set s c.key c.value
  else if c.op = "delete" then MemoryStorage.Delete s c.key
  else if c.op = "deleteAll" then MemoryStorage.Clear s
  else s

/-- Applying an ordered sequence of commands, oldest first. -/
def FSM.applyAll (s : Store) (cs : List Command) : Store :=
  cs.foldl FSM.applyCmd s

/-- `FSM.Snapshot`: enumerate `store.Keys()`, then `Get` each key in turn
(threading the store state, since `Get` lazily deletes), collecting the
successful reads into the snapshot map. -/
def FSM.Snapshot (s : Store) (now : Nat) : Store × Store :=
  (MemoryStorage.Keys s now).foldl
    (fun acc k =>
      match MemoryStorage.Get acc.2 k now with
      | (Except.ok v, s') => (setEntry acc.1 k v, s')
      | (Except.error _, s') => (acc.1, s'))
    ([], s)

/-- `FSM.Restore`: clear the store first, then decode the snapshot source;
a decode failure is returned with the store left cleared; on success every
pair is written back (`Set` on the volatile backend cannot fail). -/
def FSM.Restore (s : Store) (src : Except String Store) :
    Except String Unit × Store :=
  let cleared := MemoryStorage.Clear s
  match src with
  | Except.error e => (Except.error e, cleared)
  | Except.ok data =>
      (Except.ok (), data.foldl (fun acc e => setEntry acc e.1 e.2) cleared)

/-- The round trip of claim C2: take a snapshot, clear the engine, restore
from that snapshot; returns the resulting store. -/
def snapClearRestore (s : Store) (now : Nat) : Store :=
  let snap := FSM.Snapshot s now
  let s2 := MemoryStorage.Clear snap.2
  (FSM.Restore s2 (Except.ok snap.1)).2

/-! ### Consensus node (internal/raft/node.go)

Only the role gate of `Node.Set` / `Node.Delete` is in `src`; the hashicorp
consensus engine behind `n.raft.Apply` is third-party, so the leader path is
abstracted as a function argument `raftApply` standing for serialization,
replication and commit of the command. -/

/-- `raft.RaftState` of the hashicorp library. -/
inductive RaftState where
  | Follower
  | Candidate
  | Leader
  | Shutdown
deriving DecidableEq

/-- Node-level errors (`ErrNotLeader`, `ErrTimeout`, anything else). -/
inductive NodeErr where
  | NotLeader
  | Timeout
  | Other
deriving DecidableEq

/-- The node state relevant to the embedded operations: its consensus role
and its local storage engine. -/
structure Node where
  role : RaftState
  store : Store

/-- `Node.Set`: reject with `ErrNotLeader` before building the command if the
role is not `Leader`; otherwise hand the command to the consensus engine. -/
def Node.Set (n : Node) (raftApply : Command → Store → Option NodeErr × Store)
    (k : String) (v : Value) : Option NodeErr × Store :=
  if n.role ≠ RaftState.Leader then (some NodeErr.NotLeader, n.store)
  else raftApply { op := "set", key := k, value := v } n.store

/-- `Node.Delete`: same leader gate, op "delete". -/
def Node.Delete (n : Node)
    (raftApply : Command → Store → Option NodeErr × Store)
    (k : String) : Option NodeErr × Store :=
  if n.role ≠ RaftState.Leader then (some NodeErr.NotLeader, n.store)
  else raftApply { op := "delete", key := k, value := ⟨[], 0⟩ } n.store

/-! ### Consistent hash ring (pkg/consistenthash/consistenthash.go)

Go's `Hash` returns a `uint32`, converted to `int` with `int(m.hash(...))`:
always non-negative, so positions are `Nat`. The `hashMap : map[int]string`
is an association list over `Nat`. -/

/-- Go map read on `map[int]string`. -/
def lookupNat : List (Nat × String) → Nat → Option String
  | [], _ => none
  | (h', v) :: rest, h => if h' = h then some v else lookupNat rest h

/-- Go map write on `map[int]string`. -/
def setNat : List (Nat × String) → Nat → String → List (Nat × String)
  | [], h, v => [(h, v)]
  | (h', v') :: rest, h, v =>
      if h' = h then (h, v) :: rest else (h', v') :: setNat rest h v

/-- Go `delete` on `map[int]string`. -/
def deleteNat : List (Nat × String) → Nat → List (Nat × String)
  | [], _ => []
  | (h', v') :: rest, h =>
      if h' = h then deleteNat rest h else (h', v') :: deleteNat rest h

/-- The Go removal idiom `m.keys = append(m.keys[:idx], m.keys[idx+1:]...)`
at the first index holding `h` (no change when `h` is absent). -/
def eraseFirst : List Nat → Nat → List Nat
  | [], _ => []
  | x :: xs, h => if x = h then xs else x :: eraseFirst xs h

/-- `consistenthash.Map`: replica count, hash function, sorted position
array, and position-to-node map. -/
structure HMap where
  replicas : Nat
  hash : String → Nat
  keys : List Nat
  hashMap : List (Nat × String)

/-- `consistenthash.New`. -/
def HMap.new (replicas : Nat) (hash : String → Nat) : HMap :=
  { replicas := replicas, hash := hash, keys := [], hashMap := [] }

/-- The body of `Add`'s outer loop for one node id: for each replica index
`i`, append `hash(strconv.Itoa(i) + key)` to the position array and point it
at the node. -/
def HMap.addOne (m : HMap) (id : String) : HMap :=
  (List.range m.replicas).foldl
    (fun a i =>
      let h := a.hash (toString i ++ id)
      { a with keys := a.keys ++ [h], hashMap := setNat a.hashMap h id })
    m

/-- `Map.Add(keys ...string)`: insert all virtual positions, then
`sort.Ints(m.keys)` once. -/
def HMap.Add (m : HMap) (ids : List String) : HMap :=
  let m' := ids.foldl HMap.addOne m
  { m' with keys := List.insertionSort (· ≤ ·) m'.keys }

/-- `Map.Remove(key)`: for each replica index, recompute the virtual hash,
linearly scan for its first occurrence in the position array, and if found
remove that occurrence and delete the map entry. -/
def HMap.Remove (m : HMap) (id : String) : HMap :=
  (List.range m.replicas).foldl
    (fun a i =>
      let h := a.hash (toString i ++ id)
      if h ∈ a.keys then
        { a with keys := eraseFirst a.keys h, hashMap := deleteNat a.hashMap h }
      else a)
    m

/-- The first position `≥ h` in the sorted position array: the leftmost index
satisfying the monotone predicate of `sort.Search`. -/
def firstGE : List Nat → Nat → Option Nat
  | [], _ => none
  | x :: xs, h => if h ≤ x then some x else firstGE xs h

/-- `Map.Get(key)`: empty ring returns the sentinel `""`; otherwise binary
search for the smallest position `≥ hash(key)`, wrapping to the first
position, and look the position up in the map (a Go map miss yields `""`). -/
def HMap.Get (m : HMap) (key : String) : String :=
  match m.keys with
  | [] => ""
  | x :: _ =>
      let h := m.hash key
      let p := (firstGE m.keys h).getD x
      (lookupNat m.hashMap p).getD ""

/-- The ring position `Get` selects (`none` on an empty ring). -/
def HMap.selPos (m : HMap) (key : String) : Option Nat :=
  match m.keys with
  | [] => none
  | x :: _ => some ((firstGE m.keys (m.hash key)).getD x)

/-- `Map.GetAll()`: the distinct real node ids currently in the map. -/
def HMap.GetAll (m : HMap) : List String :=
  m.hashMap.foldl (fun acc e => if e.2 ∈ acc then acc else acc ++ [e.2]) []

/-- The virtual hashes `Remove(id)` (and `addOne id`) work through, in
replica-index order. -/
def HMap.idHashes (m : HMap) (id : String) : List Nat :=
  (List.range m.replicas).map (fun i => m.hash (toString i ++ id))

/-- All virtual hashes an `Add ids` call generates, in generation order. -/
def HMap.addHashes (m : HMap) (ids : List String) : List Nat :=
  (ids.map (fun id => HMap.idHashes m id)).flatten

/-- A membership-change script against the ring. -/
inductive RingOp where
  | add (ids : List String)
  | remove (id : String)

/-- Run a script of `Add`/`Remove` calls. -/
def applyOps : HMap → List RingOp → HMap
  | m, [] => m
  | m, RingOp.add ids :: rest => applyOps (HMap.Add m ids) rest
  | m, RingOp.remove id :: rest => applyOps (HMap.Remove m id) rest

/-- Collision freedom of a script: every `Add` generates pairwise-distinct
virtual hashes, none already on the ring. -/
def validOps : HMap → List RingOp → Bool
  | _, [] => true
  | m, RingOp.add ids :: rest =>
      decide (HMap.addHashes m ids).Nodup
        && decide (∀ h ∈ HMap.addHashes m ids, h ∉ m.keys)
        && validOps (HMap.Add m ids) rest
  | m, RingOp.remove id :: rest => validOps (HMap.Remove m id) rest

/-- Ring well-formedness: position array duplicate-free and sorted, every
position backed by a map entry, every map entry's position on the array. -/
def RingInv (m : HMap) : Prop :=
  m.keys.Nodup ∧ m.keys.Pairwise (· ≤ ·) ∧
    (∀ h ∈ m.keys, (lookupNat m.hashMap h).isSome = true) ∧
    (∀ e ∈ m.hashMap, e.1 ∈ m.keys)

instance (m : HMap) : Decidable (RingInv m) := by
  unfold RingInv
  infer_instance

/-! The parse-as-integer hash of the repository's own test
(`TestHashing` in consistenthash_test.go): `strconv.Atoi` ignoring the
error (0 on malformed input), converted to `uint32`. -/

/-- Decimal digits of a string, `none` when empty or non-numeric. -/
def parseDigits : List Char → Option Nat
  | [] => none
  | [c] => if c.isDigit then some (c.toNat - 48) else none
  | c :: rest =>
      match parseDigits rest, (if c.isDigit then some (c.toNat - 48) else none) with
      | some n, some d => some (d * 10 ^ rest.length + n)
      | _, _ => none

/-- `strconv.Atoi` with the error discarded (yielding 0, as in
`i, _ := strconv.Atoi(string(key))`). -/
def atoi (s : String) : Int :=
  match s.data with
  | '-' :: rest =>
      match parseDigits rest with
      | some n => -(n : Int)
      | none => 0
  | '+' :: rest =>
      match parseDigits rest with
      | some n => (n : Int)
      | none => 0
  | l =>
      match parseDigits l with
      | some n => (n : Int)
      | none => 0

/-- `uint32(i)` of the parsed integer: reduction mod `2 ^ 32`. -/
def parseHash (s : String) : Nat :=
  (atoi s % (2 ^ 32 : Int)).toNat

/-! ### Association-list lemmas for the storage maps -/

theorem lookup_set_self (s : Store) (k : String) (v : Value) :
    lookupKV (setEntry s k v) k = some v := by
  induction s with
  | nil => simp [setEntry, lookupKV]
  | cons e rest ih =>
      by_cases h : e.1 = k
      · simp [setEntry, h, lookupKV]
      · simp [setEntry, h, lookupKV, ih]

theorem lookup_set_ne (s : Store) (k k' : String) (v : Value) (h : k' ≠ k) :
    lookupKV (setEntry s k v) k' = lookupKV s k' := by
  have hkk : k ≠ k' := Ne.symm h
  induction s with
  | nil => simp [setEntry, lookupKV, hkk]
  | cons e rest ih =>
      by_cases he : e.1 = k
      · subst he
        simp [setEntry, lookupKV, hkk]
      · simp only [setEntry, if_neg he]
        by_cases he' : e.1 = k'
        · simp [lookupKV, he']
        · simp [lookupKV, he', ih]

theorem lookup_delete_self (s : Store) (k : String) :
    lookupKV (deleteEntry s k) k = none := by
  induction s with
  | nil => simp [deleteEntry, lookupKV]
  | cons e rest ih =>
      by_cases h : e.1 = k
      · simp [deleteEntry, h, ih]
      · simp [deleteEntry, h, lookupKV, ih]

theorem lookup_delete_ne (s : Store) (k k' : String) (h : k' ≠ k) :
    lookupKV (deleteEntry s k) k' = lookupKV s k' := by
  have hkk : k ≠ k' := Ne.symm h
  induction s with
  | nil => simp [deleteEntry]
  | cons e rest ih =>
      by_cases he : e.1 = k
      · subst he
        simp [deleteEntry, lookupKV, hkk, ih]
      · simp only [deleteEntry, if_neg he]
        by_cases he' : e.1 = k'
        · simp [lookupKV, he']
        · simp [lookupKV, he', ih]

theorem lookup_mem (s : Store) (k : String) (v : Value)
    (h : lookupKV s k = some v) : (k, v) ∈ s := by
  induction s with
  | nil => simp [lookupKV] at h
  | cons e rest ih =>
      cases e with
      | mk ek ev =>
          by_cases he : ek = k
          · subst he
            simp [lookupKV] at h
            subst h
            exact List.mem_cons_self _ _
          · simp only [lookupKV, if_neg he] at h
            exact List.mem_cons_of_mem _ (ih h)

theorem lookup_of_mem_nodup (s : Store) (k : String) (v : Value)
    (hd : (s.map Prod.fst).Nodup) (h : (k, v) ∈ s) :
    lookupKV s k = some v := by
  induction s with
  | nil => simp at h
  | cons e rest ih =>
      rcases List.mem_cons.mp h with h1 | h1
      · subst h1
        simp [lookupKV]
      · have hk : k ∈ rest.map Prod.fst :=
          List.mem_map.mpr ⟨(k, v), h1, rfl⟩
        simp only [List.map_cons, List.nodup_cons] at hd
        have he : e.1 ≠ k := by
          intro hek
          exact hd.1 (by rwa [hek])
        simp only [lookupKV, if_neg he]
        exact ih hd.2 h1

theorem lookup_none_of_not_mem (s : Store) (k : String)
    (h : k ∉ s.map Prod.fst) : lookupKV s k = none := by
  induction s with
  | nil => simp [lookupKV]
  | cons e rest ih =>
      simp only [List.map_cons, List.mem_cons, not_or] at h
      simp [lookupKV, Ne.symm h.1, ih h.2]

theorem mem_of_lookup_some (s : Store) (k : String) (v : Value)
    (h : lookupKV s k = some v) : k ∈ s.map Prod.fst :=
  List.mem_map.mpr ⟨(k, v), lookup_mem s k v h, rfl⟩

theorem setEntry_fresh (s : Store) (k : String) (v : Value)
    (h : lookupKV s k = none) : setEntry s k v = s ++ [(k, v)] := by
  induction s with
  | nil => simp [setEntry]
  | cons e rest ih =>
      by_cases he : e.1 = k
      · simp [lookupKV, he] at h
      · simp only [lookupKV, if_neg he] at h
        simp [setEntry, he, ih h]

theorem map_fst_setEntry (s : Store) (k : String) (v : Value) :
    (setEntry s k v).map Prod.fst =
      if k ∈ s.map Prod.fst then s.map Prod.fst else s.map Prod.fst ++ [k] := by
  induction s with
  | nil => simp [setEntry]
  | cons e rest ih =>
      by_cases he : e.1 = k
      · simp [setEntry, he]
      · by_cases hm : k ∈ rest.map Prod.fst
        · simp [setEntry, he, ih, hm, Ne.symm he]
        · simp [setEntry, he, ih, hm, Ne.symm he]

theorem nodup_setEntry (s : Store) (k : String) (v : Value)
    (hd : (s.map Prod.fst).Nodup) :
    ((setEntry s k v).map Prod.fst).Nodup := by
  rw [map_fst_setEntry]
  by_cases hm : k ∈ s.map Prod.fst
  · simpa [hm] using hd
  · simp only [if_neg hm]
    apply List.Nodup.append hd (List.nodup_singleton k)
    intro x hx hk
    simp only [List.mem_singleton] at hk
    subst hk
    exact hm hx

theorem deleteEntry_eq_filter (s : Store) (k : String) :
    deleteEntry s k = s.filter (fun e => !(decide (e.1 = k))) := by
  induction s with
  | nil => simp [deleteEntry]
  | cons e rest ih =>
      by_cases he : e.1 = k
      · simp [deleteEntry, he, ih]
      · simp [deleteEntry, he, ih]

theorem nodup_deleteEntry (s : Store) (k : String)
    (hd : (s.map Prod.fst).Nodup) :
    ((deleteEntry s k).map Prod.fst).Nodup := by
  rw [deleteEntry_eq_filter]
  exact List.Nodup.sublist (List.Sublist.map Prod.fst (List.filter_sublist s)) hd

theorem lookup_append_none (a : Store) (b : Store) (k : String)
    (ha : lookupKV a k = none) (hb : lookupKV b k = none) :
    lookupKV (a ++ b) k = none := by
  induction a with
  | nil => simpa using hb
  | cons e rest ih =>
      by_cases he : e.1 = k
      · simp [lookupKV, he] at ha
      · simp only [lookupKV, if_neg he] at ha
        simp [lookupKV, he, ih ha]

theorem lookup_filter (s : Store) (k : String) (v : Value)
    (p : String × Value → Bool)
    (hd : (s.map Prod.fst).Nodup)
    (h : lookupKV s k = some v) (hp : p (k, v) = true) :
    lookupKV (s.filter p) k = some v := by
  induction s with
  | nil => simp [lookupKV] at h
  | cons e rest ih =>
      simp only [List.map_cons, List.nodup_cons] at hd
      cases e with
      | mk ek ev =>
          by_cases he : ek = k
          · subst he
            simp [lookupKV] at h
            subst h
            simp [List.filter_cons, hp, lookupKV]
          · simp only [lookupKV, if_neg he] at h
            by_cases hpe : p (ek, ev) = true
            · simp [List.filter_cons, hpe, lookupKV, he, ih hd.2 h]
            · simp only [List.filter_cons, if_neg hpe]
              exact ih hd.2 h

/-! ### Lemmas about Keys, Snapshot and Restore -/

theorem keys_mem (s : Store) (k : String) (now : Nat) :
    k ∈ MemoryStorage.Keys s now ↔
      ∃ v, (k, v) ∈ s ∧ v.expired now = false := by
  unfold MemoryStorage.Keys
  simp only [List.mem_map, List.mem_filter]
  constructor
  · rintro ⟨e, ⟨hm, hexp⟩, hk⟩
    exact ⟨e.2, by
      cases e
      subst hk
      exact hm, by simpa using hexp⟩
  · rintro ⟨v, hm, hexp⟩
    exact ⟨(k, v), ⟨hm, by simpa using hexp⟩, rfl⟩

theorem keys_subset_map_fst (s : Store) (now : Nat) (k : String)
    (h : k ∈ MemoryStorage.Keys s now) : k ∈ s.map Prod.fst := by
  rcases (keys_mem s k now).mp h with ⟨v, hm, _⟩
  exact List.mem_map.mpr ⟨(k, v), hm, rfl⟩

theorem nodup_keys (s : Store) (now : Nat)
    (hd : (s.map Prod.fst).Nodup) : (MemoryStorage.Keys s now).Nodup :=
  List.Nodup.sublist
    (List.Sublist.map Prod.fst (List.filter_sublist s)) hd

/-- The value loop of `FSM.Snapshot`: over keys all present and live in `s`
and fresh in the accumulator, each `Get` succeeds without touching the
store, and the accumulated map is the keys paired with their values. -/
theorem snapshot_fold (now : Nat) :
    ∀ (ks : List String) (s acc : Store),
      ks.Nodup →
      (∀ k ∈ ks, ∃ v, lookupKV s k = some v ∧ v.expired now = false) →
      (∀ k ∈ ks, lookupKV acc k = none) →
      ks.foldl
        (fun acc k =>
          match MemoryStorage.Get acc.2 k now with
          | (Except.ok v, s') => (setEntry acc.1 k v, s')
          | (Except.error _, s') => (acc.1, s'))
        (acc, s) =
      (acc ++ ks.map (fun k => (k, (lookupKV s k).getD ⟨[], 0⟩)), s) := by
  intro ks
  induction ks with
  | nil => intro s acc _ _ _; simp
  | cons k ks ih =>
      intro s acc hnd hlive hacc
      obtain ⟨v, hv, hexp⟩ := hlive k (List.mem_cons_self k ks)
      have hget : MemoryStorage.Get s k now = (Except.ok v, s) := by
        simp [MemoryStorage.Get, hv, hexp]
      have hfresh : lookupKV acc k = none := hacc k (List.mem_cons_self k ks)
      have hstep :
          (List.foldl
            (fun acc k =>
              match MemoryStorage.Get acc.2 k now with
              | (Except.ok v, s') => (setEntry acc.1 k v, s')
              | (Except.error _, s') => (acc.1, s'))
            (acc, s) (k :: ks)) =
          List.foldl
            (fun acc k =>
              match MemoryStorage.Get acc.2 k now with
              | (Except.ok v, s') => (setEntry acc.1 k v, s')
              | (Except.error _, s') => (acc.1, s'))
            (setEntry acc k v, s) ks := by
        simp [List.foldl_cons, hget]
      rw [hstep, setEntry_fresh acc k v hfresh]
      have hknotin : k ∉ ks := (List.nodup_cons.mp hnd).1
      have ihres := ih s (acc ++ [(k, v)]) (List.nodup_cons.mp hnd).2
        (fun k' hk' => hlive k' (List.mem_cons_of_mem _ hk'))
        (fun k' hk' => by
          refine lookup_append_none acc [(k, v)] k'
            (hacc k' (List.mem_cons_of_mem _ hk')) ?_
          have hne : k ≠ k' := fun he => hknotin (he ▸ hk')
          simp [lookupKV, hne])
      rw [ihres, List.append_assoc]
      simp [hv]

/-- On a duplicate-free store, the snapshot loop's key-to-pair map is
exactly the non-expired entries of the store, in order. -/
theorem keys_pairs_eq_filter (now : Nat) :
    ∀ s : Store, (s.map Prod.fst).Nodup →
      (MemoryStorage.Keys s now).map
          (fun k => (k, (lookupKV s k).getD ⟨[], 0⟩)) =
        s.filter (fun e => !(e.2.expired now)) := by
  intro s
  induction s with
  | nil => intro _; rfl
  | cons e rest ih =>
      intro hd
      simp only [List.map_cons, List.nodup_cons] at hd
      have hmap :
          (MemoryStorage.Keys rest now).map
              (fun k => (k, (lookupKV (e :: rest) k).getD ⟨[], 0⟩)) =
            (MemoryStorage.Keys rest now).map
              (fun k => (k, (lookupKV rest k).getD ⟨[], 0⟩)) := by
        refine List.map_congr_left ?_
        intro k hk
        have hke : e.1 ≠ k := by
          intro hek
          exact hd.1 (hek ▸ keys_subset_map_fst rest now k hk)
        simp [lookupKV, hke]
      by_cases pe : e.2.expired now
      · have hkeys : MemoryStorage.Keys (e :: rest) now =
            MemoryStorage.Keys rest now := by
          simp [MemoryStorage.Keys, List.filter_cons, pe]
        rw [hkeys, hmap, ih hd.2]
        simp [List.filter_cons, pe]
      · have hkeys : MemoryStorage.Keys (e :: rest) now =
            e.1 :: MemoryStorage.Keys rest now := by
          simp [MemoryStorage.Keys, List.filter_cons, pe]
        rw [hkeys, List.map_cons, hmap, ih hd.2]
        have hlook : lookupKV (e :: rest) e.1 = some e.2 := by
          cases e
          simp [lookupKV]
        simp [hlook, List.filter_cons, pe]

/-- `FSM.Snapshot` on a duplicate-free store materialises exactly the
non-expired entries and leaves the store unchanged. -/
theorem snapshot_eq_filter (s : Store) (now : Nat)
    (hd : (s.map Prod.fst).Nodup) :
    FSM.Snapshot s now = (s.filter (fun e => !(e.2.expired now)), s) := by
  unfold FSM.Snapshot
  have hlive : ∀ k ∈ MemoryStorage.Keys s now,
      ∃ v, lookupKV s k = some v ∧ v.expired now = false := by
    intro k hk
    rcases (keys_mem s k now).mp hk with ⟨v, hm, hexp⟩
    exact ⟨v, lookup_of_mem_nodup s k v hd hm, hexp⟩
  have h := snapshot_fold now (MemoryStorage.Keys s now) s []
    (nodup_keys s now hd) hlive (fun k _ => rfl)
  rw [h, List.nil_append, keys_pairs_eq_filter now s hd]

/-- Writing back a duplicate-free pair list whose keys are fresh for the
accumulator just appends it. -/
theorem restore_fold :
    ∀ (l init : Store), ((l.map Prod.fst).Nodup) →
      (∀ e ∈ l, lookupKV init e.1 = none) →
      l.foldl (fun acc e => setEntry acc e.1 e.2) init = init ++ l := by
  intro l
  induction l with
  | nil => intro init _ _; simp
  | cons e rest ih =>
      intro init hd hfresh
      simp only [List.map_cons, List.nodup_cons] at hd
      rw [List.foldl_cons,
        setEntry_fresh init e.1 e.2 (hfresh e (List.mem_cons_self e rest)),
        ih (init ++ [(e.1, e.2)]) hd.2, List.append_assoc]
      · simp
      · intro e' he'
        refine lookup_append_none init [(e.1, e.2)] e'.1
          (hfresh e' (List.mem_cons_of_mem _ he')) ?_
        have hne : e.1 ≠ e'.1 := by
          intro hee
          exact hd.1 (hee ▸ List.mem_map.mpr ⟨e', he', rfl⟩)
        simp [lookupKV, hne]

/-- The C2 round trip on a duplicate-free store rebuilds exactly the
non-expired entries. -/
theorem snapClearRestore_eq_filter (s : Store) (now : Nat)
    (hd : (s.map Prod.fst).Nodup) :
    snapClearRestore s now = s.filter (fun e => !(e.2.expired now)) := by
  unfold snapClearRestore
  rw [snapshot_eq_filter s now hd]
  show (FSM.Restore (MemoryStorage.Clear s)
    (Except.ok (s.filter (fun e => !(e.2.expired now))))).2 = _
  unfold FSM.Restore MemoryStorage.Clear
  have hnd : ((s.filter (fun e => !(e.2.expired now))).map Prod.fst).Nodup :=
    List.Nodup.sublist (List.Sublist.map Prod.fst (List.filter_sublist s)) hd
  simpa using restore_fold (s.filter (fun e => !(e.2.expired now))) [] hnd
    (fun _ _ => rfl)

/-! ### Claim C1 -/

/-- Claim C1: for every key and value, calling `Set` or `Delete` on a `Node`
whose consensus role is not `Leader` returns the `NotLeader` error and
leaves the node's local storage engine completely unchanged (the returned
store is exactly the node's store), for any behaviour of the consensus
engine's apply path. -/
theorem claimC1_nonleader_mutations_rejected
    (n : Node) (raftApply : Command → Store → Option NodeErr × Store)
    (k : String) (v : Value) (h : n.role ≠ RaftState.Leader) :
    Node.Set n raftApply k v = (some NodeErr.NotLeader, n.store) ∧
    Node.Delete n raftApply k = (some NodeErr.NotLeader, n.store) := by
  constructor
  · simp [Node.Set, h]
  · simp [Node.Delete, h]

/-- Claim C1 witness: a follower node with one stored key rejects `Set` and
`Delete` with `NotLeader` and keeps its store. -/
theorem claimC1_witness :
    (Node.mk RaftState.Follower [("a", ⟨[1], 0⟩)]).role ≠ RaftState.Leader ∧
    Node.Set (Node.mk RaftState.Follower [("a", ⟨[1], 0⟩)])
        (fun _ s => (none, s)) "b" ⟨[2], 0⟩ =
      (some NodeErr.NotLeader, [("a", ⟨[1], 0⟩)]) ∧
    Node.Delete (Node.mk RaftState.Follower [("a", ⟨[1], 0⟩)])
        (fun _ s => (none, s)) "a" =
      (some NodeErr.NotLeader, [("a", ⟨[1], 0⟩)]) :=
  ⟨by decide,
   (claimC1_nonleader_mutations_rejected _ _ "b" ⟨[2], 0⟩ (by decide)).1,
   (claimC1_nonleader_mutations_rejected _ _ "a" ⟨[2], 0⟩ (by decide)).2⟩

/-! ### Claim C2 -/

/-- Claim C2: for every storage state (duplicate keys being impossible in a
Go map), taking an FSM snapshot, clearing the engine, and restoring from
that snapshot yields an engine whose `Keys()` equal the pre-snapshot ones
and whose `Get(k)` result equals the pre-snapshot result for every key that
was not expired at snapshot time. -/
theorem claimC2_snapshot_roundtrip (s : Store) (now : Nat)
    (hd : (s.map Prod.fst).Nodup) :
    MemoryStorage.Keys (snapClearRestore s now) now =
      MemoryStorage.Keys s now ∧
    ∀ k v, lookupKV s k = some v → v.expired now = false →
      (MemoryStorage.Get (snapClearRestore s now) k now).1 =
        (MemoryStorage.Get s k now).1 := by
  rw [snapClearRestore_eq_filter s now hd]
  constructor
  · unfold MemoryStorage.Keys
    rw [List.filter_filter]
    simp
  · intro k v hv hexp
    have hlf : lookupKV (s.filter (fun e => !(e.2.expired now))) k = some v :=
      lookup_filter s k v _ hd hv (by simpa using hexp)
    simp [MemoryStorage.Get, hv, hlf, hexp]

/-- Claim C2 witness: a store with one live and one expired entry
round-trips to the live entry. -/
theorem claimC2_witness :
    (([("a", ⟨[1], 0⟩), ("b", ⟨[2], 3⟩)].map
        (Prod.fst (α := String) (β := Value))).Nodup) ∧
    MemoryStorage.Keys
        (snapClearRestore [("a", ⟨[1], 0⟩), ("b", ⟨[2], 3⟩)] 10) 10 =
      MemoryStorage.Keys [("a", ⟨[1], 0⟩), ("b", ⟨[2], 3⟩)] 10 ∧
    (MemoryStorage.Get
        (snapClearRestore [("a", ⟨[1], 0⟩), ("b", ⟨[2], 3⟩)] 10) "a" 10).1 =
      (MemoryStorage.Get [("a", ⟨[1], 0⟩), ("b", ⟨[2], 3⟩)] "a" 10).1 :=
  ⟨by decide,
   (claimC2_snapshot_roundtrip [("a", ⟨[1], 0⟩), ("b", ⟨[2], 3⟩)] 10
      (by decide)).1,
   (claimC2_snapshot_roundtrip [("a", ⟨[1], 0⟩), ("b", ⟨[2], 3⟩)] 10
      (by decide)).2 "a" ⟨[1], 0⟩ (by decide) (by decide)⟩

/-! ### Claim C3 -/

/-- Claim C3: on both backends, `Get(k)` returns `NotFound` when `k` is
absent, and `Expired` when `k` is present with an expiration in the past at
access time; in the expired case the entry is lazily deleted before
returning, so a subsequent `Has(k)` on the resulting state is false. For the
durable backend, "present" is presence of the key's file, with any cached
entry agreeing with the file. -/
theorem claimC3_get_notfound_expired
    (s : Store) (d : DStore) (k : String) (v : Value) (now : Nat) :
    (lookupKV s k = none →
      MemoryStorage.Get s k now = (Except.error StErr.NotFound, s)) ∧
    (lookupKV s k = some v → v.expired now = true →
      (MemoryStorage.Get s k now).1 = Except.error StErr.Expired ∧
      MemoryStorage.Has (MemoryStorage.Get s k now).2 k now = false) ∧
    (lookupKV d.mem k = none → lookupKV d.disk k = none →
      DiskStorage.Get d k now = (Except.error StErr.NotFound, d)) ∧
    (lookupKV d.disk k = some v → v.expired now = true →
      (∀ w, lookupKV d.mem k = some w → w = v) →
      (DiskStorage.Get d k now).1 = Except.error StErr.Expired ∧
      (DiskStorage.Has (DiskStorage.Get d k now).2 k now).1 = false) := by
  refine ⟨?_, ?_, ?_, ?_⟩
  · intro h
    simp [MemoryStorage.Get, h]
  · intro h hexp
    have h1 : MemoryStorage.Get s k now =
        (Except.error StErr.Expired, deleteEntry s k) := by
      simp [MemoryStorage.Get, h, hexp]
    rw [h1]
    exact ⟨rfl, by simp [MemoryStorage.Has, lookup_delete_self]⟩
  · intro hm hd
    simp [DiskStorage.Get, MemoryStorage.Get, hm, hd]
  · intro hd hexp hagree
    cases hm : lookupKV d.mem k with
    | none =>
        have h1 : DiskStorage.Get d k now =
            (Except.error StErr.Expired,
             DiskStorage.Delete { d with mem := d.mem } k) := by
          simp [DiskStorage.Get, MemoryStorage.Get, hm, hd, hexp]
        rw [h1]
        refine ⟨rfl, ?_⟩
        simp [DiskStorage.Has, DiskStorage.Delete, MemoryStorage.Has,
          lookup_delete_self]
    | some w =>
        have hw : w = v := hagree w hm
        subst hw
        have h1 : DiskStorage.Get d k now =
            (Except.error StErr.Expired,
             DiskStorage.Delete { d with mem := deleteEntry d.mem k } k) := by
          simp [DiskStorage.Get, MemoryStorage.Get, hm, hd, hexp]
        rw [h1]
        refine ⟨rfl, ?_⟩
        simp [DiskStorage.Has, DiskStorage.Delete, MemoryStorage.Has,
          lookup_delete_self]

/-- Claim C3 witness: concrete absent and expired keys on both backends. -/
theorem claimC3_witness :
    (MemoryStorage.Get [("a", ⟨[1], 5⟩)] "b" 10 =
      (Except.error StErr.NotFound, [("a", ⟨[1], 5⟩)])) ∧
    ((MemoryStorage.Get [("a", ⟨[1], 5⟩)] "a" 10).1 =
        Except.error StErr.Expired ∧
      MemoryStorage.Has (MemoryStorage.Get [("a", ⟨[1], 5⟩)] "a" 10).2
        "a" 10 = false) ∧
    (DiskStorage.Get ⟨[], []⟩ "a" 10 =
      (Except.error StErr.NotFound, ⟨[], []⟩)) ∧
    ((DiskStorage.Get ⟨[("a", ⟨[1], 5⟩)], [("a", ⟨[1], 5⟩)]⟩ "a" 10).1 =
        Except.error StErr.Expired ∧
      (DiskStorage.Has
        (DiskStorage.Get ⟨[("a", ⟨[1], 5⟩)], [("a", ⟨[1], 5⟩)]⟩ "a" 10).2
        "a" 10).1 = false) :=
  ⟨(claimC3_get_notfound_expired [("a", ⟨[1], 5⟩)] ⟨[], []⟩ "b" ⟨[1], 5⟩
      10).1 (by decide),
   (claimC3_get_notfound_expired [("a", ⟨[1], 5⟩)] ⟨[], []⟩ "a" ⟨[1], 5⟩
      10).2.1 (by decide) (by decide),
   (claimC3_get_notfound_expired [] ⟨[], []⟩ "a" ⟨[1], 5⟩ 10).2.2.1
      (by decide) (by decide),
   (claimC3_get_notfound_expired []
      ⟨[("a", ⟨[1], 5⟩)], [("a", ⟨[1], 5⟩)]⟩ "a" ⟨[1], 5⟩ 10).2.2.2
      (by decide) (by decide) (by decide)⟩

/-! ### Claim C7 -/

theorem applyCmd_lookup_eq (s1 s2 : Store) (c : Command)
    (heq : ∀ k, lookupKV s1 k = lookupKV s2 k) :
    ∀ k, lookupKV (FSM.applyCmd s1 c) k = lookupKV (FSM.applyCmd s2 c) k := by
  intro k
  unfold FSM.applyCmd
  by_cases hset : c.op = "set"
  · simp only [if_pos hset]
    unfold MemoryStorage.Set
    by_cases hk : k = c.key
    · subst hk
      rw [lookup_set_self, lookup_set_self]
    · rw [lookup_set_ne _ _ _ _ hk, lookup_set_ne _ _ _ _ hk]
      exact heq k
  · simp only [if_neg hset]
    by_cases hdel : c.op = "delete"
    · simp only [if_pos hdel]
      unfold MemoryStorage.Delete
      by_cases hk : k = c.key
      · subst hk
        rw [lookup_delete_self, lookup_delete_self]
      · rw [lookup_delete_ne _ _ _ hk, lookup_delete_ne _ _ _ hk]
        exact heq k
    · simp only [if_neg hdel]
      by_cases hclr : c.op = "deleteAll"
      · simp [if_pos hclr, MemoryStorage.Clear]
      · simp only [if_neg hclr]
        exact heq k

theorem nodup_applyCmd (s : Store) (c : Command)
    (hd : (s.map Prod.fst).Nodup) :
    ((FSM.applyCmd s c).map Prod.fst).Nodup := by
  unfold FSM.applyCmd
  by_cases hset : c.op = "set"
  · simpa [hset] using nodup_setEntry s c.key c.value hd
  · by_cases hdel : c.op = "delete"
    · simpa [hset, hdel, MemoryStorage.Delete] using
        nodup_deleteEntry s c.key hd
    · by_cases hclr : c.op = "deleteAll"
      · simp [hset, hdel, hclr, MemoryStorage.Clear]
      · simpa [hset, hdel, hclr] using hd

theorem applyAll_lookup_eq (cs : List Command) :
    ∀ (s1 s2 : Store), (∀ k, lookupKV s1 k = lookupKV s2 k) →
      ∀ k, lookupKV (FSM.applyAll s1 cs) k =
        lookupKV (FSM.applyAll s2 cs) k := by
  induction cs with
  | nil => intro s1 s2 heq k; exact heq k
  | cons c cs ih =>
      intro s1 s2 heq k
      exact ih (FSM.applyCmd s1 c) (FSM.applyCmd s2 c)
        (applyCmd_lookup_eq s1 s2 c heq) k

theorem nodup_applyAll (cs : List Command) :
    ∀ s : Store, (s.map Prod.fst).Nodup →
      ((FSM.applyAll s cs).map Prod.fst).Nodup := by
  induction cs with
  | nil => intro s hd; exact hd
  | cons c cs ih =>
      intro s hd
      exact ih (FSM.applyCmd s c) (nodup_applyCmd s c hd)

theorem keys_mem_lookup (s : Store) (k : String) (now : Nat)
    (hd : (s.map Prod.fst).Nodup) :
    k ∈ MemoryStorage.Keys s now ↔
      ∃ v, lookupKV s k = some v ∧ v.expired now = false := by
  rw [keys_mem]
  constructor
  · rintro ⟨v, hm, hexp⟩
    exact ⟨v, lookup_of_mem_nodup s k v hd hm, hexp⟩
  · rintro ⟨v, hv, hexp⟩
    exact ⟨v, lookup_mem s k v hv, hexp⟩

/-- Claim C7: applying the same ordered command sequence to two
storage engines holding the same mapping (in particular, two independently
constructed empty engines) yields engines with identical stored values and
identical key sets. -/
theorem claimC7_fsm_deterministic (cs : List Command) (s1 s2 : Store)
    (now : Nat)
    (h1 : (s1.map Prod.fst).Nodup) (h2 : (s2.map Prod.fst).Nodup)
    (heq : ∀ k, lookupKV s1 k = lookupKV s2 k) :
    (∀ k, lookupKV (FSM.applyAll s1 cs) k =
      lookupKV (FSM.applyAll s2 cs) k) ∧
    (∀ k, k ∈ MemoryStorage.Keys (FSM.applyAll s1 cs) now ↔
      k ∈ MemoryStorage.Keys (FSM.applyAll s2 cs) now) := by
  have hl := applyAll_lookup_eq cs s1 s2 heq
  refine ⟨hl, ?_⟩
  intro k
  rw [keys_mem_lookup _ k now (nodup_applyAll cs s1 h1),
    keys_mem_lookup _ k now (nodup_applyAll cs s2 h2), hl k]

/-- Claim C7 witness: two differently-ordered but extensionally equal
stores driven through a set/delete/clear-free command mix end up equal. -/
theorem claimC7_witness :
    lookupKV
        (FSM.applyAll [("a", ⟨[1], 0⟩), ("b", ⟨[2], 0⟩)]
          [⟨"set", "c", ⟨[3], 0⟩⟩, ⟨"delete", "b", ⟨[], 0⟩⟩]) "c" =
      lookupKV
        (FSM.applyAll [("b", ⟨[2], 0⟩), ("a", ⟨[1], 0⟩)]
          [⟨"set", "c", ⟨[3], 0⟩⟩, ⟨"delete", "b", ⟨[], 0⟩⟩]) "c" ∧
    ("a" ∈ MemoryStorage.Keys
        (FSM.applyAll [("a", ⟨[1], 0⟩), ("b", ⟨[2], 0⟩)]
          [⟨"set", "c", ⟨[3], 0⟩⟩, ⟨"delete", "b", ⟨[], 0⟩⟩]) 5 ↔
      "a" ∈ MemoryStorage.Keys
        (FSM.applyAll [("b", ⟨[2], 0⟩), ("a", ⟨[1], 0⟩)]
          [⟨"set", "c", ⟨[3], 0⟩⟩, ⟨"delete", "b", ⟨[], 0⟩⟩]) 5) := by
  have heq : ∀ k,
      lookupKV [("a", ⟨[1], 0⟩), ("b", ⟨[2], 0⟩)] k =
        lookupKV [("b", ⟨[2], 0⟩), ("a", ⟨[1], 0⟩)] k := by
    intro k
    by_cases ha : "a" = k
    · subst ha; decide
    · by_cases hb : "b" = k
      · subst hb; decide
      · simp [lookupKV, ha, hb]
  exact ⟨(claimC7_fsm_deterministic
      [⟨"set", "c", ⟨[3], 0⟩⟩, ⟨"delete", "b", ⟨[], 0⟩⟩]
      [("a", ⟨[1], 0⟩), ("b", ⟨[2], 0⟩)]
      [("b", ⟨[2], 0⟩), ("a", ⟨[1], 0⟩)] 5
      (by decide) (by decide) heq).1 "c",
    (claimC7_fsm_deterministic
      [⟨"set", "c", ⟨[3], 0⟩⟩, ⟨"delete", "b", ⟨[], 0⟩⟩]
      [("a", ⟨[1], 0⟩), ("b", ⟨[2], 0⟩)]
      [("b", ⟨[2], 0⟩), ("a", ⟨[1], 0⟩)] 5
      (by decide) (by decide) heq).2 "a"⟩

/-! ### Claim C9 -/

/-- Claim C9: `DiskStorage.Set` writes the cache before the file, so when
the disk write fails it returns an error, the durable state is unchanged,
and a subsequent `Get` of that key still returns the new value from the
cache — cache and persisted state diverge. -/
theorem claimC9_diskset_cache_diverges
    (d : DStore) (k : String) (v : Value) (now : Nat)
    (h : v.expired now = false) :
    (DiskStorage.Set d k v false).1 = some StErr.IOFailure ∧
    ((DiskStorage.Set d k v false).2).disk = d.disk ∧
    ((DiskStorage.Set d k v false).2).mem = setEntry d.mem k v ∧
    (DiskStorage.Get (DiskStorage.Set d k v false).2 k now).1 =
      Except.ok v := by
  refine ⟨rfl, rfl, rfl, ?_⟩
  simp [DiskStorage.Set, DiskStorage.Get, MemoryStorage.Get,
    lookup_set_self, h]

/-- Claim C9 witness: a concrete failed disk write leaves the new value
readable from the cache while the disk is unchanged. -/
theorem claimC9_witness :
    Value.expired ⟨[7], 0⟩ 5 = false ∧
    (DiskStorage.Set ⟨[], [("a", ⟨[1], 0⟩)]⟩ "a" ⟨[7], 0⟩ false).1 =
      some StErr.IOFailure ∧
    ((DiskStorage.Set ⟨[], [("a", ⟨[1], 0⟩)]⟩ "a" ⟨[7], 0⟩ false).2).disk =
      [("a", ⟨[1], 0⟩)] ∧
    (DiskStorage.Get
      (DiskStorage.Set ⟨[], [("a", ⟨[1], 0⟩)]⟩ "a" ⟨[7], 0⟩ false).2
      "a" 5).1 = Except.ok ⟨[7], 0⟩ :=
  ⟨by decide,
   (claimC9_diskset_cache_diverges ⟨[], [("a", ⟨[1], 0⟩)]⟩ "a" ⟨[7], 0⟩ 5
      (by decide)).1,
   (claimC9_diskset_cache_diverges ⟨[], [("a", ⟨[1], 0⟩)]⟩ "a" ⟨[7], 0⟩ 5
      (by decide)).2.1,
   (claimC9_diskset_cache_diverges ⟨[], [("a", ⟨[1], 0⟩)]⟩ "a" ⟨[7], 0⟩ 5
      (by decide)).2.2.2⟩

/-! ### Claim C8 -/

/-- The refresh loop only touches the durable half through the expired-file
deletions. -/
theorem loadDisk_disk (now : Nat) :
    ∀ (l : Store) (acc : DStore),
      (l.foldl
        (fun acc e =>
          if e.2.expired now then { acc with disk := deleteEntry acc.disk e.1 }
          else { acc with mem := setEntry acc.mem e.1 e.2 })
        acc).disk =
      l.foldl
        (fun ds e => if e.2.expired now then deleteEntry ds e.1 else ds)
        acc.disk := by
  intro l
  induction l with
  | nil => intro acc; rfl
  | cons e rest ih =>
      intro acc
      by_cases he : e.2.expired now
      · simp [List.foldl_cons, he, ih]
      · simp [List.foldl_cons, he, ih]

/-- Folded conditional deletions are one filter against the scanned list. -/
theorem delete_fold_filter (now : Nat) :
    ∀ (l : Store) (acc : Store),
      l.foldl
        (fun ds e => if e.2.expired now then deleteEntry ds e.1 else ds)
        acc =
      acc.filter
        (fun x => !(l.any (fun e => e.2.expired now && decide (e.1 = x.1)))) := by
  intro l
  induction l with
  | nil => intro acc; simp
  | cons e rest ih =>
      intro acc
      by_cases he : e.2.expired now
      · rw [List.foldl_cons, if_pos he, ih, deleteEntry_eq_filter,
          List.filter_filter]
        refine List.filter_congr ?_
        intro x _
        simp only [List.any_cons, he, Bool.true_and, Bool.not_or]
        rw [Bool.and_comm]
        have : decide (x.1 = e.1) = decide (e.1 = x.1) := by
          simp [eq_comm]
        rw [this]
      · rw [List.foldl_cons, if_neg he, ih]
        refine List.filter_congr ?_
        intro x _
        simp [List.any_cons, he]

/-- On a duplicate-free directory, the refresh scan deletes exactly the
expired files. -/
theorem loadDisk_disk_filter (d : DStore) (now : Nat)
    (hd : (d.disk.map Prod.fst).Nodup) :
    (DiskStorage.loadFromDisk d now).disk =
      d.disk.filter (fun e => !(e.2.expired now)) := by
  unfold DiskStorage.loadFromDisk
  rw [loadDisk_disk now d.disk d, delete_fold_filter now d.disk d.disk]
  refine List.filter_congr ?_
  intro x hx
  have hiff : (d.disk.any (fun e => e.2.expired now && decide (e.1 = x.1))) =
      x.2.expired now := by
    by_cases hexp : x.2.expired now
    · rw [hexp]
      rw [List.any_eq_true]
      exact ⟨x, hx, by simp [hexp]⟩
    · simp only [hexp]
      rw [List.any_eq_false]
      intro e he
      simp only [Bool.and_eq_true, decide_eq_true_eq, not_and]
      intro heexp hekey
      have : e = x := List.inj_on_of_nodup_map hd he hx hekey
      subst this
      exact hexp heexp
  rw [hiff]

/-- The refresh loop only touches the cache through the `Set` calls for the
non-expired files. -/
theorem loadDisk_mem (now : Nat) :
    ∀ (l : Store) (acc : DStore),
      (l.foldl
        (fun acc e =>
          if e.2.expired now then { acc with disk := deleteEntry acc.disk e.1 }
          else { acc with mem := setEntry acc.mem e.1 e.2 })
        acc).mem =
      (l.filter (fun e => !(e.2.expired now))).foldl
        (fun mem e => setEntry mem e.1 e.2) acc.mem := by
  intro l
  induction l with
  | nil => intro acc; rfl
  | cons e rest ih =>
      intro acc
      by_cases he : e.2.expired now
      · simp [List.foldl_cons, List.filter_cons, he, ih]
      · simp [List.foldl_cons, List.filter_cons, he, ih]

/-- Looking up through a `setEntry` replay of a duplicate-free pair list:
a pair of the list wins, otherwise the initial store answers. -/
theorem lookup_setEntryFold :
    ∀ (l init : Store) (k : String), ((l.map Prod.fst).Nodup) →
      (∀ v, lookupKV l k = some v →
        lookupKV (l.foldl (fun a e => setEntry a e.1 e.2) init) k = some v) ∧
      (lookupKV l k = none →
        lookupKV (l.foldl (fun a e => setEntry a e.1 e.2) init) k =
          lookupKV init k) := by
  intro l
  induction l with
  | nil =>
      intro init k _
      exact ⟨fun v hv => by simp [lookupKV] at hv, fun _ => by simp⟩
  | cons e rest ih =>
      intro init k hnd
      simp only [List.map_cons, List.nodup_cons] at hnd
      constructor
      · intro v hv
        by_cases he : e.1 = k
        · have hv2 : v = e.2 := by
            simp only [lookupKV, if_pos he, Option.some.injEq] at hv
            exact hv.symm
          subst hv2
          have hrest : lookupKV rest k = none := by
            refine lookup_none_of_not_mem rest k ?_
            rw [← he]
            exact hnd.1
          rw [List.foldl_cons]
          rw [(ih (setEntry init e.1 e.2) k hnd.2).2 hrest, ← he]
          exact lookup_set_self init e.1 e.2
        · simp only [lookupKV, if_neg he] at hv
          rw [List.foldl_cons]
          exact (ih (setEntry init e.1 e.2) k hnd.2).1 v hv
      · intro hnone
        have he : ¬(e.1 = k) := by
          intro he
          simp [lookupKV, he] at hnone
        simp only [lookupKV, if_neg he] at hnone
        rw [List.foldl_cons, (ih (setEntry init e.1 e.2) k hnd.2).2 hnone]
        exact lookup_set_ne init e.1 k e.2 (fun hk => he (Eq.symm hk))

/-- Filtering cannot make an absent key present. -/
theorem lookup_filter_none (s : Store) (k : String)
    (p : String × Value → Bool) (h : lookupKV s k = none) :
    lookupKV (s.filter p) k = none := by
  induction s with
  | nil => simp [lookupKV]
  | cons e rest ih =>
      have he : ¬(e.1 = k) := by
        intro he
        simp [lookupKV, he] at h
      simp only [lookupKV, if_neg he] at h
      by_cases hp : p e = true
      · simp [List.filter_cons, hp, lookupKV, he, ih h]
      · simp only [List.filter_cons, if_neg hp]
        exact ih h

/-- On a duplicate-free store, filtering out the key's own entry makes the
key absent. -/
theorem lookup_filter_none_of_false (s : Store) (k : String) (v : Value)
    (p : String × Value → Bool) (hd : (s.map Prod.fst).Nodup)
    (h : lookupKV s k = some v) (hp : p (k, v) = false) :
    lookupKV (s.filter p) k = none := by
  induction s with
  | nil => simp [lookupKV] at h
  | cons e rest ih =>
      simp only [List.map_cons, List.nodup_cons] at hd
      by_cases he : e.1 = k
      · have hev : e = (k, v) := by
          cases e with
          | mk ek ev =>
              simp only at he
              subst he
              simp [lookupKV] at h
              rw [h]
        subst hev
        simp only [List.filter_cons, hp, Bool.false_eq_true, if_neg,
          not_false_eq_true]
        refine lookup_filter_none rest k p ?_
        exact lookup_none_of_not_mem rest k hd.1
      · simp only [lookupKV, if_neg he] at h
        by_cases hpe : p e = true
        · simp [List.filter_cons, hpe, lookupKV, he, ih hd.2 h]
        · simp only [List.filter_cons, if_neg hpe]
          exact ih hd.2 h

/-- A `setEntry` replay preserves key duplicate-freedom of the store. -/
theorem nodup_setEntryFold :
    ∀ (l init : Store), ((init.map Prod.fst).Nodup) →
      (((l.foldl (fun a e => setEntry a e.1 e.2) init).map Prod.fst).Nodup) := by
  intro l
  induction l with
  | nil => intro init h; exact h
  | cons e rest ih =>
      intro init h
      rw [List.foldl_cons]
      exact ih (setEntry init e.1 e.2) (nodup_setEntry init e.1 e.2 h)

/-- What the refreshed cache answers for each key: the key's non-expired
file if it has one, otherwise whatever the cache already held. -/
theorem loadDisk_mem_lookup (d : DStore) (now : Nat) (k : String)
    (hd : (d.disk.map Prod.fst).Nodup) :
    (∀ v, lookupKV d.disk k = some v → v.expired now = false →
      lookupKV (DiskStorage.loadFromDisk d now).mem k = some v) ∧
    (lookupKV d.disk k = none →
      lookupKV (DiskStorage.loadFromDisk d now).mem k = lookupKV d.mem k) ∧
    (∀ v, lookupKV d.disk k = some v → v.expired now = true →
      lookupKV (DiskStorage.loadFromDisk d now).mem k = lookupKV d.mem k) := by
  have hmem : (DiskStorage.loadFromDisk d now).mem =
      (d.disk.filter (fun e => !(e.2.expired now))).foldl
        (fun mem e => setEntry mem e.1 e.2) d.mem :=
    loadDisk_mem now d.disk d
  have hndf : ((d.disk.filter (fun e => !(e.2.expired now))).map
      Prod.fst).Nodup :=
    List.Nodup.sublist (List.Sublist.map Prod.fst (List.filter_sublist _)) hd
  refine ⟨?_, ?_, ?_⟩
  · intro v hv hexp
    have hf : lookupKV (d.disk.filter (fun e => !(e.2.expired now))) k =
        some v :=
      lookup_filter _ k v _ hd hv (by simp [hexp])
    rw [hmem]
    exact (lookup_setEntryFold _ d.mem k hndf).1 v hf
  · intro hnone
    have hf : lookupKV (d.disk.filter (fun e => !(e.2.expired now))) k =
        none :=
      lookup_filter_none d.disk k _ hnone
    rw [hmem]
    exact (lookup_setEntryFold _ d.mem k hndf).2 hf
  · intro v hv hexp
    have hf : lookupKV (d.disk.filter (fun e => !(e.2.expired now))) k =
        none :=
      lookup_filter_none_of_false d.disk k v _ hd hv (by simp [hexp])
    rw [hmem]
    exact (lookup_setEntryFold _ d.mem k hndf).2 hf

/-- Claim C8 counterexample: on the durable backend, an expired entry IS
deleted from the durable store as a side effect of `Keys()` (the refresh
scan removes its file), contradicting the claim that neither backend
deletes on `Keys`. -/
theorem claimC8_counterexample :
    lookupKV ((DiskStorage.Keys ⟨[], [("a", ⟨[1], 5⟩)]⟩ 10).2).disk "a" =
        none ∧
    lookupKV ((⟨[], [("a", ⟨[1], 5⟩)]⟩ : DStore)).disk "a" =
        some ⟨[1], 5⟩ := by
  decide

/-- Claim C8 (amended): `Keys()` returns exactly the non-expired keys on
both backends — on the durable backend (whose cache agrees with disk where
both hold the key) exactly the keys with a non-expired entry on disk or in
the cache. The volatile backend's state is completely unchanged, but the
durable backend's refresh deletes the expired entries from the durable
store as a side effect (keeping exactly the non-expired files). -/
theorem claimC8_amended_keys_effects (s : Store) (d : DStore) (now : Nat)
    (hs : (s.map Prod.fst).Nodup) (hd : (d.disk.map Prod.fst).Nodup) :
    (MemoryStorage.KeysOp s now).2 = s ∧
    (∀ k, k ∈ (MemoryStorage.KeysOp s now).1 ↔
      ∃ v, lookupKV s k = some v ∧ v.expired now = false) ∧
    ((d.mem.map Prod.fst).Nodup →
      (∀ k w v, lookupKV d.mem k = some w → lookupKV d.disk k = some v →
        w = v) →
      ∀ k, k ∈ (DiskStorage.Keys d now).1 ↔
        ∃ v, (lookupKV d.disk k = some v ∨ lookupKV d.mem k = some v) ∧
          v.expired now = false) ∧
    ((DiskStorage.Keys d now).2).disk =
      d.disk.filter (fun e => !(e.2.expired now)) := by
  refine ⟨rfl, ?_, ?_, ?_⟩
  · intro k
    exact keys_mem_lookup s k now hs
  · intro hm hcoh k
    have hshow : (DiskStorage.Keys d now).1 =
        MemoryStorage.Keys (DiskStorage.loadFromDisk d now).mem now := rfl
    have hA : (DiskStorage.loadFromDisk d now).mem =
        (d.disk.filter (fun e => !(e.2.expired now))).foldl
          (fun mem e => setEntry mem e.1 e.2) d.mem :=
      loadDisk_mem now d.disk d
    have hndm :
        (((DiskStorage.loadFromDisk d now).mem).map Prod.fst).Nodup := by
      rw [hA]
      exact nodup_setEntryFold _ d.mem hm
    rw [hshow, keys_mem_lookup _ k now hndm]
    obtain ⟨hcase1, hcase2, hcase3⟩ := loadDisk_mem_lookup d now k hd
    cases hdk : lookupKV d.disk k with
    | some v =>
        by_cases hexp : v.expired now = true
        · rw [hcase3 v hdk hexp]
          constructor
          · rintro ⟨w, hw, hwexp⟩
            have hwv : w = v := hcoh k w v hw hdk
            subst hwv
            rw [hexp] at hwexp
            simp at hwexp
          · rintro ⟨u, hu | hu, huexp⟩
            · injection hu with hu
              subst hu
              rw [hexp] at huexp
              simp at huexp
            · have huv : u = v := hcoh k u v hu hdk
              subst huv
              rw [hexp] at huexp
              simp at huexp
        · have hexp' : v.expired now = false := by
            cases hx : v.expired now
            · rfl
            · exact absurd hx hexp
          rw [hcase1 v hdk hexp']
          exact iff_of_true ⟨v, rfl, hexp'⟩ ⟨v, Or.inl rfl, hexp'⟩
    | none =>
        rw [hcase2 hdk]
        constructor
        · rintro ⟨w, hw, hwexp⟩
          exact ⟨w, Or.inr hw, hwexp⟩
        · rintro ⟨u, hu | hu, huexp⟩
          · simp at hu
          · exact ⟨u, hu, huexp⟩
  · show (DiskStorage.loadFromDisk d now).disk = _
    exact loadDisk_disk_filter d now hd

/-- Claim C8 witness: concrete stores with one live and one expired entry,
including the durable backend's returned-keys characterization. -/
theorem claimC8_witness :
    (MemoryStorage.KeysOp [("a", ⟨[1], 0⟩), ("b", ⟨[2], 3⟩)] 10).2 =
      [("a", ⟨[1], 0⟩), ("b", ⟨[2], 3⟩)] ∧
    ("a" ∈ (MemoryStorage.KeysOp [("a", ⟨[1], 0⟩), ("b", ⟨[2], 3⟩)] 10).1 ↔
      ∃ v, lookupKV [("a", ⟨[1], 0⟩), ("b", ⟨[2], 3⟩)] "a" = some v ∧
        v.expired 10 = false) ∧
    ("a" ∈ (DiskStorage.Keys
        ⟨[], [("a", ⟨[1], 0⟩), ("b", ⟨[2], 3⟩)]⟩ 10).1 ↔
      ∃ v, (lookupKV [("a", ⟨[1], 0⟩), ("b", ⟨[2], 3⟩)] "a" = some v ∨
          lookupKV [] "a" = some v) ∧
        v.expired 10 = false) ∧
    ((DiskStorage.Keys ⟨[], [("a", ⟨[1], 0⟩), ("b", ⟨[2], 3⟩)]⟩ 10).2).disk =
      [("a", ⟨[1], 0⟩)] :=
  ⟨(claimC8_amended_keys_effects [("a", ⟨[1], 0⟩), ("b", ⟨[2], 3⟩)]
      ⟨[], [("a", ⟨[1], 0⟩), ("b", ⟨[2], 3⟩)]⟩ 10 (by decide) (by decide)).1,
   (claimC8_amended_keys_effects [("a", ⟨[1], 0⟩), ("b", ⟨[2], 3⟩)]
      ⟨[], [("a", ⟨[1], 0⟩), ("b", ⟨[2], 3⟩)]⟩ 10 (by decide) (by decide)).2.1
      "a",
   (claimC8_amended_keys_effects [("a", ⟨[1], 0⟩), ("b", ⟨[2], 3⟩)]
      ⟨[], [("a", ⟨[1], 0⟩), ("b", ⟨[2], 3⟩)]⟩ 10 (by decide)
      (by decide)).2.2.1 (by decide)
      (by
        intro k w v hw _
        simp [lookupKV] at hw) "a",
   (claimC8_amended_keys_effects [("a", ⟨[1], 0⟩), ("b", ⟨[2], 3⟩)]
      ⟨[], [("a", ⟨[1], 0⟩), ("b", ⟨[2], 3⟩)]⟩ 10 (by decide)
      (by decide)).2.2.2⟩

/-! ### Ring map and position-array lemmas -/

theorem lookupNat_setNat (mp : List (Nat × String)) (h x : Nat) (v : String) :
    lookupNat (setNat mp h v) x = if x = h then some v else lookupNat mp x := by
  induction mp with
  | nil =>
      by_cases hx : x = h
      · simp [setNat, lookupNat, hx]
      · have hxs : ¬(h = x) := fun he => hx (Eq.symm he)
        simp [setNat, lookupNat, hx, hxs]
  | cons e rest ih =>
      cases e with
      | mk h' v' =>
          by_cases hh : h' = h
          · subst hh
            by_cases hx : x = h'
            · subst hx
              simp [setNat, lookupNat]
            · have h2 : ¬(h' = x) := fun he => hx (Eq.symm he)
              simp [setNat, lookupNat, hx, h2]
          · by_cases hx' : h' = x
            · subst hx'
              have h1 : ¬(h' = h) := hh
              simp [setNat, lookupNat, hh, h1]
            · simp [setNat, hh, lookupNat, hx', ih]

theorem lookupNat_deleteNat (mp : List (Nat × String)) (h x : Nat) :
    lookupNat (deleteNat mp h) x = if x = h then none else lookupNat mp x := by
  induction mp with
  | nil => simp [deleteNat, lookupNat]
  | cons e rest ih =>
      cases e with
      | mk h' v' =>
          by_cases hh : h' = h
          · subst hh
            by_cases hx : x = h'
            · subst hx
              simp [deleteNat, ih]
            · have h2 : ¬(h' = x) := fun he => hx (Eq.symm he)
              simp [deleteNat, lookupNat, ih, hx, h2]
          · by_cases hx' : h' = x
            · subst hx'
              simp [deleteNat, lookupNat, hh]
            · simp [deleteNat, hh, lookupNat, hx', ih]

theorem lookupNat_mem (mp : List (Nat × String)) (h : Nat) (v : String)
    (hl : lookupNat mp h = some v) : (h, v) ∈ mp := by
  induction mp with
  | nil => simp [lookupNat] at hl
  | cons e rest ih =>
      cases e with
      | mk h' v' =>
          by_cases hh : h' = h
          · subst hh
            simp [lookupNat] at hl
            subst hl
            exact List.mem_cons_self _ _
          · simp only [lookupNat, if_neg hh] at hl
            exact List.mem_cons_of_mem _ (ih hl)

theorem lookupNat_none_of_not_mem (mp : List (Nat × String)) (h : Nat)
    (hm : h ∉ mp.map Prod.fst) : lookupNat mp h = none := by
  induction mp with
  | nil => simp [lookupNat]
  | cons e rest ih =>
      simp only [List.map_cons, List.mem_cons, not_or] at hm
      simp [lookupNat, Ne.symm hm.1, ih hm.2]

theorem setNat_fresh (mp : List (Nat × String)) (h : Nat) (v : String)
    (hl : lookupNat mp h = none) : setNat mp h v = mp ++ [(h, v)] := by
  induction mp with
  | nil => simp [setNat]
  | cons e rest ih =>
      by_cases he : e.1 = h
      · simp [lookupNat, he] at hl
      · simp only [lookupNat, if_neg he] at hl
        simp [setNat, he, ih hl]

theorem deleteNat_of_none (mp : List (Nat × String)) (h : Nat)
    (hl : lookupNat mp h = none) : deleteNat mp h = mp := by
  induction mp with
  | nil => rfl
  | cons e rest ih =>
      by_cases he : e.1 = h
      · simp [lookupNat, he] at hl
      · simp only [lookupNat, if_neg he] at hl
        simp [deleteNat, he, ih hl]

theorem deleteNat_append (a b : List (Nat × String)) (h : Nat) :
    deleteNat (a ++ b) h = deleteNat a h ++ deleteNat b h := by
  induction a with
  | nil => simp [deleteNat]
  | cons e rest ih =>
      by_cases he : e.1 = h
      · simp [deleteNat, he, ih]
      · simp [deleteNat, he, ih]

theorem lookup_pairList (hs : List Nat) (id : String) (x : Nat) :
    lookupNat (hs.map (fun h => (h, id))) x =
      if x ∈ hs then some id else none := by
  induction hs with
  | nil => simp [lookupNat]
  | cons h rest ih =>
      by_cases hx : h = x
      · subst hx
        simp [lookupNat]
      · have : ¬(x = h) := fun he => hx (Eq.symm he)
        simp [lookupNat, hx, ih, this]

theorem lookup_deleteFold (hs : List Nat) :
    ∀ (mp : List (Nat × String)) (x : Nat),
      lookupNat (hs.foldl deleteNat mp) x =
        if x ∈ hs then none else lookupNat mp x := by
  induction hs with
  | nil => intro mp x; simp
  | cons h rest ih =>
      intro mp x
      rw [List.foldl_cons, ih]
      by_cases hx : x = h
      · subst hx
        simp [lookupNat_deleteNat]
      · by_cases hr : x ∈ rest
        · simp [hr, hx]
        · simp [hr, hx, lookupNat_deleteNat]

theorem deleteFold_cancel (id : String) :
    ∀ (hs : List Nat) (mp : List (Nat × String)),
      hs.Nodup → (∀ h ∈ hs, lookupNat mp h = none) →
      hs.foldl deleteNat (mp ++ hs.map (fun h => (h, id))) = mp := by
  intro hs
  induction hs with
  | nil => intro mp _ _; simp
  | cons h rest ih =>
      intro mp hnd hfresh
      rw [List.foldl_cons, List.map_cons]
      have hdel : deleteNat (mp ++ (h, id) :: rest.map (fun h => (h, id))) h =
          mp ++ rest.map (fun h => (h, id)) := by
        rw [deleteNat_append,
          deleteNat_of_none mp h (hfresh h (List.mem_cons_self h rest))]
        have hrest : deleteNat (rest.map (fun h => (h, id))) h =
            rest.map (fun h => (h, id)) := by
          refine deleteNat_of_none _ h ?_
          rw [lookup_pairList]
          simp [(List.nodup_cons.mp hnd).1]
        simp [deleteNat, hrest]
      rw [hdel]
      exact ih mp (List.nodup_cons.mp hnd).2
        (fun h' hh' => hfresh h' (List.mem_cons_of_mem _ hh'))

theorem eraseFirst_sublist (l : List Nat) (h : Nat) :
    (eraseFirst l h).Sublist l := by
  induction l with
  | nil => simp [eraseFirst]
  | cons x xs ih =>
      by_cases hx : x = h
      · rw [eraseFirst, if_pos hx]
        exact List.sublist_cons_self x xs
      · rw [eraseFirst, if_neg hx]
        exact List.Sublist.cons₂ x ih

theorem filter_ne_of_not_mem (l : List Nat) (h : Nat) (hm : h ∉ l) :
    l.filter (fun x => !(decide (x = h))) = l := by
  induction l with
  | nil => rfl
  | cons x xs ih =>
      simp only [List.mem_cons, not_or] at hm
      simp [List.filter_cons, Ne.symm hm.1, ih hm.2]

theorem eraseFirst_eq_filter (l : List Nat) (h : Nat) (hnd : l.Nodup) :
    eraseFirst l h = l.filter (fun x => !(decide (x = h))) := by
  induction l with
  | nil => rfl
  | cons x xs ih =>
      rcases List.nodup_cons.mp hnd with ⟨hx, hxs⟩
      by_cases hxh : x = h
      · subst hxh
        simp [eraseFirst, List.filter_cons, filter_ne_of_not_mem xs x hx]
      · simp [eraseFirst, List.filter_cons, hxh, ih hxs]

/-! ### firstGE on sorted position arrays -/

theorem firstGE_mem (l : List Nat) (h p : Nat)
    (hf : firstGE l h = some p) : p ∈ l := by
  induction l with
  | nil => simp [firstGE] at hf
  | cons x xs ih =>
      by_cases hx : h ≤ x
      · simp only [firstGE, if_pos hx, Option.some.injEq] at hf
        subst hf
        exact List.mem_cons_self _ _
      · simp only [firstGE, if_neg hx] at hf
        exact List.mem_cons_of_mem _ (ih hf)

theorem firstGE_le (l : List Nat) (h p : Nat)
    (hf : firstGE l h = some p) : h ≤ p := by
  induction l with
  | nil => simp [firstGE] at hf
  | cons x xs ih =>
      by_cases hx : h ≤ x
      · simp [firstGE, hx] at hf
        omega
      · simp only [firstGE, if_neg hx] at hf
        exact ih hf

theorem firstGE_none_iff (l : List Nat) (h : Nat) :
    firstGE l h = none ↔ ∀ q ∈ l, q < h := by
  induction l with
  | nil => simp [firstGE]
  | cons x xs ih =>
      by_cases hx : h ≤ x
      · simp only [firstGE, if_pos hx]
        constructor
        · intro hf
          simp at hf
        · intro hall
          have := hall x (List.mem_cons_self x xs)
          omega
      · simp only [firstGE, if_neg hx]
        rw [ih]
        constructor
        · intro hall q hq
          rcases List.mem_cons.mp hq with hq | hq
          · subst hq
            omega
          · exact hall q hq
        · intro hall q hq
          exact hall q (List.mem_cons_of_mem _ hq)

theorem firstGE_min (l : List Nat) (h p : Nat)
    (hs : l.Pairwise (· ≤ ·)) (hf : firstGE l h = some p) :
    ∀ q ∈ l, h ≤ q → p ≤ q := by
  induction l with
  | nil => simp [firstGE] at hf
  | cons x xs ih =>
      rcases List.pairwise_cons.mp hs with ⟨hx_le, hxs⟩
      by_cases hx : h ≤ x
      · simp [firstGE, hx] at hf
        subst hf
        intro q hq _
        rcases List.mem_cons.mp hq with hq | hq
        · omega
        · exact hx_le q hq
      · simp only [firstGE, if_neg hx] at hf
        intro q hq hhq
        rcases List.mem_cons.mp hq with hq | hq
        · subst hq; omega
        · exact ih hxs hf q hq hhq

theorem firstGE_eq_some (l : List Nat) (h p : Nat)
    (hs : l.Pairwise (· ≤ ·)) (hp : p ∈ l) (hhp : h ≤ p)
    (hmin : ∀ q ∈ l, h ≤ q → p ≤ q) : firstGE l h = some p := by
  induction l with
  | nil => simp at hp
  | cons x xs ih =>
      rcases List.pairwise_cons.mp hs with ⟨hx_le, hxs⟩
      by_cases hx : h ≤ x
      · have hpx : p ≤ x := hmin x (List.mem_cons_self x xs) hx
        have hxp : x ≤ p := by
          rcases List.mem_cons.mp hp with hq | hq
          · omega
          · exact hx_le p hq
        have : p = x := by omega
        simp [firstGE, hx, this]
      · have hpxs : p ∈ xs := by
          rcases List.mem_cons.mp hp with hq | hq
          · subst hq; omega
          · exact hq
        simp only [firstGE, if_neg hx]
        exact ih hxs hpxs
          (fun q hq hhq => hmin q (List.mem_cons_of_mem _ hq) hhq)

theorem head_min (x : Nat) (xs : List Nat)
    (hs : (x :: xs).Pairwise (· ≤ ·)) : ∀ q ∈ x :: xs, x ≤ q := by
  rcases List.pairwise_cons.mp hs with ⟨hx_le, _⟩
  intro q hq
  rcases List.mem_cons.mp hq with hq | hq
  · omega
  · exact hx_le q hq

/-! ### GetAll membership -/

theorem getAll_fold_mono (l : List (Nat × String)) :
    ∀ (acc : List String) (x : String), x ∈ acc →
      x ∈ l.foldl (fun acc e => if e.2 ∈ acc then acc else acc ++ [e.2]) acc := by
  induction l with
  | nil => intro acc x hx; simpa using hx
  | cons e rest ih =>
      intro acc x hx
      rw [List.foldl_cons]
      by_cases he : e.2 ∈ acc
      · rw [if_pos he]
        exact ih acc x hx
      · rw [if_neg he]
        exact ih (acc ++ [e.2]) x (List.mem_append_left _ hx)

theorem getAll_fold_complete (l : List (Nat × String)) :
    ∀ (acc : List String) (e : Nat × String), e ∈ l →
      e.2 ∈ l.foldl (fun acc e => if e.2 ∈ acc then acc else acc ++ [e.2]) acc := by
  induction l with
  | nil => intro acc e he; simp at he
  | cons e0 rest ih =>
      intro acc e he
      rw [List.foldl_cons]
      rcases List.mem_cons.mp he with he | he
      · subst he
        by_cases h0 : e.2 ∈ acc
        · rw [if_pos h0]
          exact getAll_fold_mono rest acc e.2 h0
        · rw [if_neg h0]
          exact getAll_fold_mono rest (acc ++ [e.2]) e.2
            (List.mem_append_right _ (List.mem_singleton.mpr rfl))
      · by_cases h0 : e0.2 ∈ acc
        · rw [if_pos h0]
          exact ih acc e he
        · rw [if_neg h0]
          exact ih (acc ++ [e0.2]) e he

theorem mem_getAll_of_mem (m : HMap) (h : Nat) (v : String)
    (hm : (h, v) ∈ m.hashMap) : v ∈ HMap.GetAll m :=
  getAll_fold_complete m.hashMap [] (h, v) hm

/-! ### Structure of Add and Remove -/

theorem hmap_ext (m1 m2 : HMap) (h1 : m1.replicas = m2.replicas)
    (h2 : m1.hash = m2.hash) (h3 : m1.keys = m2.keys)
    (h4 : m1.hashMap = m2.hashMap) : m1 = m2 := by
  cases m1
  cases m2
  simp_all

theorem lookupNat_append_none (a b : List (Nat × String)) (h : Nat)
    (ha : lookupNat a h = none) (hb : lookupNat b h = none) :
    lookupNat (a ++ b) h = none := by
  induction a with
  | nil => simpa using hb
  | cons e rest ih =>
      by_cases he : e.1 = h
      · simp [lookupNat, he] at ha
      · simp only [lookupNat, if_neg he] at ha
        simp [lookupNat, he, ih ha]

theorem lookup_setFold (id : String) :
    ∀ (hs : List Nat) (mp : List (Nat × String)) (x : Nat),
      lookupNat (hs.foldl (fun mp h => setNat mp h id) mp) x =
      if x ∈ hs then some id else lookupNat mp x := by
  intro hs
  induction hs with
  | nil => intro mp x; simp
  | cons h rest ih =>
      intro mp x
      rw [List.foldl_cons, ih]
      by_cases hr : x ∈ rest
      · simp [hr]
      · by_cases hx : x = h
        · simp [hr, hx, lookupNat_setNat]
        · simp [hr, hx, lookupNat_setNat]

theorem setFold_fresh (id : String) :
    ∀ (hs : List Nat) (mp : List (Nat × String)),
      hs.Nodup → (∀ h ∈ hs, lookupNat mp h = none) →
      hs.foldl (fun mp h => setNat mp h id) mp =
        mp ++ hs.map (fun h => (h, id)) := by
  intro hs
  induction hs with
  | nil => intro mp _ _; simp
  | cons h rest ih =>
      intro mp hnd hfresh
      rw [List.foldl_cons,
        setNat_fresh mp h id (hfresh h (List.mem_cons_self h rest)),
        ih (mp ++ [(h, id)]) (List.nodup_cons.mp hnd).2, List.append_assoc]
      · simp
      · intro h' hh'
        refine lookupNat_append_none mp [(h, id)] h'
          (hfresh h' (List.mem_cons_of_mem _ hh')) ?_
        have hne : ¬(h = h') := by
          intro he
          exact (List.nodup_cons.mp hnd).1 (he ▸ hh')
        simp [lookupNat, hne]

theorem addOne_spec (id : String) :
    ∀ (is : List Nat) (a : HMap),
      is.foldl
        (fun a i =>
          let h := a.hash (toString i ++ id)
          { a with keys := a.keys ++ [h], hashMap := setNat a.hashMap h id })
        a =
      { a with
        keys := a.keys ++ is.map (fun i => a.hash (toString i ++ id)),
        hashMap := (is.map (fun i => a.hash (toString i ++ id))).foldl
          (fun mp h => setNat mp h id) a.hashMap } := by
  intro is
  induction is with
  | nil =>
      intro a
      cases a
      simp
  | cons i is ih =>
      intro a
      rw [List.foldl_cons, ih]
      cases a
      simp [List.append_assoc]

theorem addOne_char (m : HMap) (id : String) :
    HMap.addOne m id =
      { m with
        keys := m.keys ++ HMap.idHashes m id,
        hashMap := (HMap.idHashes m id).foldl
          (fun mp h => setNat mp h id) m.hashMap } := by
  unfold HMap.addOne HMap.idHashes
  exact addOne_spec id (List.range m.replicas) m

theorem idHashes_congr (a b : HMap) (hh : a.hash = b.hash)
    (hr : a.replicas = b.replicas) (id : String) :
    HMap.idHashes a id = HMap.idHashes b id := by
  unfold HMap.idHashes
  rw [hh, hr]

theorem addHashes_congr (a b : HMap) (hh : a.hash = b.hash)
    (hr : a.replicas = b.replicas) :
    ∀ ids, HMap.addHashes a ids = HMap.addHashes b ids := by
  intro ids
  unfold HMap.addHashes
  have : ∀ id, HMap.idHashes a id = HMap.idHashes b id :=
    fun id => idHashes_congr a b hh hr id
  simp [this]

theorem adds_spec :
    ∀ (ids : List String) (a : HMap),
      (ids.foldl HMap.addOne a).replicas = a.replicas ∧
      (ids.foldl HMap.addOne a).hash = a.hash ∧
      (ids.foldl HMap.addOne a).keys = a.keys ++ HMap.addHashes a ids ∧
      ∀ x, ((lookupNat (ids.foldl HMap.addOne a).hashMap x).isSome = true ↔
        (x ∈ HMap.addHashes a ids ∨
          (lookupNat a.hashMap x).isSome = true)) := by
  intro ids
  induction ids with
  | nil =>
      intro a
      refine ⟨rfl, rfl, by simp [HMap.addHashes], ?_⟩
      intro x
      simp [HMap.addHashes]
  | cons id ids ih =>
      intro a
      have hone := addOne_char a id
      have hfields : (HMap.addOne a id).hash = a.hash ∧
          (HMap.addOne a id).replicas = a.replicas := by
        rw [hone]
        exact ⟨rfl, rfl⟩
      obtain ⟨ihr, ihh, ihk, ihm⟩ := ih (HMap.addOne a id)
      have hcongr : HMap.addHashes (HMap.addOne a id) ids =
          HMap.addHashes a ids :=
        addHashes_congr _ _ hfields.1 hfields.2 ids
      have hsplit : HMap.addHashes a (id :: ids) =
          HMap.idHashes a id ++ HMap.addHashes a ids := by
        unfold HMap.addHashes
        simp
      refine ⟨?_, ?_, ?_, ?_⟩
      · rw [List.foldl_cons, ihr, hfields.2]
      · rw [List.foldl_cons, ihh, hfields.1]
      · rw [List.foldl_cons, ihk, hcongr, hsplit]
        rw [hone]
        simp [List.append_assoc]
      · intro x
        rw [List.foldl_cons, ihm x, hcongr, hsplit]
        have hlook : lookupNat (HMap.addOne a id).hashMap x =
            if x ∈ HMap.idHashes a id then some id
            else lookupNat a.hashMap x := by
          rw [hone]
          exact lookup_setFold id (HMap.idHashes a id) a.hashMap x
        rw [hlook]
        by_cases hi : x ∈ HMap.idHashes a id
        · simp [hi]
        · simp [hi, List.mem_append]

theorem add_def (m : HMap) (ids : List String) :
    HMap.Add m ids =
      { replicas := (ids.foldl HMap.addOne m).replicas,
        hash := (ids.foldl HMap.addOne m).hash,
        keys := List.insertionSort (· ≤ ·) (ids.foldl HMap.addOne m).keys,
        hashMap := (ids.foldl HMap.addOne m).hashMap } := rfl

theorem add_spec (m : HMap) (ids : List String) :
    (HMap.Add m ids).replicas = m.replicas ∧
    (HMap.Add m ids).hash = m.hash ∧
    (HMap.Add m ids).keys =
      List.insertionSort (· ≤ ·) (m.keys ++ HMap.addHashes m ids) ∧
    ∀ x, ((lookupNat (HMap.Add m ids).hashMap x).isSome = true ↔
      (x ∈ HMap.addHashes m ids ∨
        (lookupNat m.hashMap x).isSome = true)) := by
  obtain ⟨hr, hh, hk, hm⟩ := adds_spec ids m
  rw [add_def]
  refine ⟨hr, hh, ?_, hm⟩
  rw [hk]

theorem remove_eq_fold_hashes (m : HMap) (id : String) :
    HMap.Remove m id =
      (HMap.idHashes m id).foldl
        (fun a h =>
          if h ∈ a.keys then
            { a with keys := eraseFirst a.keys h,
                     hashMap := deleteNat a.hashMap h }
          else a) m := by
  unfold HMap.Remove HMap.idHashes
  have hgen : ∀ (is : List Nat) (a : HMap), a.hash = m.hash →
      is.foldl
        (fun a i =>
          let h := a.hash (toString i ++ id)
          if h ∈ a.keys then
            { a with keys := eraseFirst a.keys h,
                     hashMap := deleteNat a.hashMap h }
          else a) a =
      (is.map (fun i => m.hash (toString i ++ id))).foldl
        (fun a h =>
          if h ∈ a.keys then
            { a with keys := eraseFirst a.keys h,
                     hashMap := deleteNat a.hashMap h }
          else a) a := by
    intro is
    induction is with
    | nil => intro a _; rfl
    | cons i is ih =>
        intro a ha
        rw [List.map_cons, List.foldl_cons, List.foldl_cons]
        have hstep : (let h := a.hash (toString i ++ id)
            if h ∈ a.keys then
              { a with keys := eraseFirst a.keys h,
                       hashMap := deleteNat a.hashMap h }
            else a) =
            (if m.hash (toString i ++ id) ∈ a.keys then
              { a with keys := eraseFirst a.keys (m.hash (toString i ++ id)),
                       hashMap := deleteNat a.hashMap (m.hash (toString i ++ id)) }
            else a) := by
          rw [ha]
        rw [hstep]
        by_cases hc : m.hash (toString i ++ id) ∈ a.keys
        · rw [if_pos hc]
          exact ih _ ha
        · rw [if_neg hc]
          exact ih _ ha
  exact hgen (List.range m.replicas) m rfl

theorem remove_fold :
    ∀ (hs : List Nat) (a : HMap), a.keys.Nodup →
      (∀ h, h ∈ a.keys ↔ (lookupNat a.hashMap h).isSome = true) →
      hs.foldl
        (fun a h =>
          if h ∈ a.keys then
            { a with keys := eraseFirst a.keys h,
                     hashMap := deleteNat a.hashMap h }
          else a) a =
      { a with keys := a.keys.filter (fun x => !(decide (x ∈ hs))),
               hashMap := hs.foldl deleteNat a.hashMap } := by
  intro hs
  induction hs with
  | nil =>
      intro a _ _
      cases a
      simp
  | cons h rest ih =>
      intro a hnd hiff
      rw [List.foldl_cons]
      by_cases hc : h ∈ a.keys
      · rw [if_pos hc]
        have hkeys' : (eraseFirst a.keys h) =
            a.keys.filter (fun x => !(decide (x = h))) :=
          eraseFirst_eq_filter a.keys h hnd
        have hnd' : (eraseFirst a.keys h).Nodup :=
          List.Nodup.sublist (eraseFirst_sublist a.keys h) hnd
        have hiff' : ∀ h', h' ∈ eraseFirst a.keys h ↔
            (lookupNat (deleteNat a.hashMap h) h').isSome = true := by
          intro h'
          rw [hkeys', List.mem_filter, lookupNat_deleteNat]
          by_cases hx : h' = h
          · simp [hx]
          · simp [hx, hiff h']
        rw [ih _ hnd' hiff']
        refine hmap_ext _ _ rfl rfl ?_ rfl
        show (eraseFirst a.keys h).filter _ = _
        rw [hkeys', List.filter_filter]
        refine List.filter_congr ?_
        intro x _
        by_cases hx : x = h
        · simp [hx]
        · simp [hx]
      · rw [if_neg hc]
        have hdel : deleteNat a.hashMap h = a.hashMap := by
          refine deleteNat_of_none a.hashMap h ?_
          cases hl : lookupNat a.hashMap h with
          | none => rfl
          | some v =>
              exact absurd ((hiff h).mpr (by simp [hl])) hc
        rw [ih a hnd hiff]
        refine hmap_ext _ _ rfl rfl ?_ ?_
        · refine List.filter_congr ?_
          intro x hx
          have hxh : ¬(x = h) := fun he => hc (he ▸ hx)
          simp [hxh]
        · show _ = List.foldl deleteNat a.hashMap (h :: rest)
          rw [List.foldl_cons, hdel]

/-- Under the ring invariant, `Remove` filters the removed node's virtual
positions out of the position array and deletes them from the map. -/
theorem remove_spec (m : HMap) (id : String) (hnd : m.keys.Nodup)
    (hiff : ∀ h, h ∈ m.keys ↔ (lookupNat m.hashMap h).isSome = true) :
    HMap.Remove m id =
      { m with
        keys := m.keys.filter (fun x => !(decide (x ∈ HMap.idHashes m id))),
        hashMap := (HMap.idHashes m id).foldl deleteNat m.hashMap } := by
  rw [remove_eq_fold_hashes m id]
  exact remove_fold (HMap.idHashes m id) m hnd hiff

/-! ### The ring invariant through Add, Remove and op scripts -/

theorem lookupNat_isSome_of_mem (mp : List (Nat × String))
    (e : Nat × String) (he : e ∈ mp) :
    (lookupNat mp e.1).isSome = true := by
  induction mp with
  | nil => simp at he
  | cons e0 rest ih =>
      by_cases h0 : e0.1 = e.1
      · cases e0
        simp_all [lookupNat]
      · cases e0 with
        | mk h' v' =>
            rcases List.mem_cons.mp he with he1 | he1
            · subst he1
              simp at h0
            · simpa [lookupNat, h0] using ih he1

theorem ringInv_iff (m : HMap) (hInv : RingInv m) :
    ∀ h, h ∈ m.keys ↔ (lookupNat m.hashMap h).isSome = true := by
  intro h
  constructor
  · exact fun hm => hInv.2.2.1 h hm
  · intro hl
    cases hs : lookupNat m.hashMap h with
    | none =>
        rw [hs] at hl
        simp at hl
    | some v => exact hInv.2.2.2 (h, v) (lookupNat_mem _ _ _ hs)

theorem ringInv_of_iff (m : HMap) (h1 : m.keys.Nodup)
    (h2 : m.keys.Pairwise (· ≤ ·))
    (h3 : ∀ h, h ∈ m.keys ↔ (lookupNat m.hashMap h).isSome = true) :
    RingInv m :=
  ⟨h1, h2, fun h hm => (h3 h).mp hm,
   fun e he => (h3 e.1).mpr (lookupNat_isSome_of_mem m.hashMap e he)⟩

theorem inv_new (r : Nat) (f : String → Nat) : RingInv (HMap.new r f) := by
  refine ⟨List.nodup_nil, List.Pairwise.nil, ?_, ?_⟩ <;> simp [HMap.new]

theorem inv_add (m : HMap) (ids : List String) (hInv : RingInv m)
    (hnd : (HMap.addHashes m ids).Nodup)
    (hfresh : ∀ h ∈ HMap.addHashes m ids, h ∉ m.keys) :
    RingInv (HMap.Add m ids) := by
  obtain ⟨hr, hh, hk, hm⟩ := add_spec m ids
  have hperm : List.Perm (HMap.Add m ids).keys
      (m.keys ++ HMap.addHashes m ids) := by
    rw [hk]
    exact List.perm_insertionSort _ _
  have hbase : (m.keys ++ HMap.addHashes m ids).Nodup := by
    rw [List.nodup_append]
    exact ⟨hInv.1, hnd, List.disjoint_right.mpr hfresh⟩
  refine ringInv_of_iff _ (hperm.nodup_iff.mpr hbase) ?_ ?_
  · rw [hk]
    exact List.sorted_insertionSort _ _
  · intro h
    rw [hperm.mem_iff, List.mem_append, hm h, ringInv_iff m hInv h]
    tauto

theorem inv_remove (m : HMap) (id : String) (hInv : RingInv m) :
    RingInv (HMap.Remove m id) := by
  rw [remove_spec m id hInv.1 (ringInv_iff m hInv)]
  refine ringInv_of_iff _ ?_ ?_ ?_
  · exact List.Nodup.sublist (List.filter_sublist m.keys) hInv.1
  · exact List.Pairwise.filter _ hInv.2.1
  · intro h
    show h ∈ m.keys.filter _ ↔
      (lookupNat ((HMap.idHashes m id).foldl deleteNat m.hashMap) h).isSome
        = true
    rw [List.mem_filter, lookup_deleteFold]
    by_cases hi : h ∈ HMap.idHashes m id
    · simp [hi]
    · simp [hi, ringInv_iff m hInv h]

theorem inv_applyOps (ops : List RingOp) :
    ∀ m : HMap, RingInv m → validOps m ops = true →
      RingInv (applyOps m ops) := by
  induction ops with
  | nil => intro m hInv _; exact hInv
  | cons op rest ih =>
      intro m hInv hv
      cases op with
      | add ids =>
          simp only [validOps, Bool.and_eq_true, decide_eq_true_eq] at hv
          exact ih (HMap.Add m ids)
            (inv_add m ids hInv hv.1.1 hv.1.2) hv.2
      | remove id =>
          simp only [validOps] at hv
          exact ih (HMap.Remove m id) (inv_remove m id hInv) hv

/-! ### Get on a well-formed ring -/

theorem get_cons (r : Nat) (f : String → Nat) (x : Nat) (xs : List Nat)
    (mp : List (Nat × String)) (key : String) :
    HMap.Get ⟨r, f, x :: xs, mp⟩ key =
      (lookupNat mp ((firstGE (x :: xs) (f key)).getD x)).getD "" := rfl

theorem selPos_cons (r : Nat) (f : String → Nat) (x : Nat) (xs : List Nat)
    (mp : List (Nat × String)) (key : String) :
    HMap.selPos ⟨r, f, x :: xs, mp⟩ key =
      some ((firstGE (x :: xs) (f key)).getD x) := rfl

theorem selPos_mem (m : HMap) (key : String) (p : Nat)
    (hp : HMap.selPos m key = some p) : p ∈ m.keys := by
  obtain ⟨r, f, ks, mp⟩ := m
  cases ks with
  | nil => simp [HMap.selPos] at hp
  | cons x xs =>
      rw [selPos_cons] at hp
      injection hp with hp
      subst hp
      cases hf : firstGE (x :: xs) (f key) with
      | none => simp [hf]
      | some p0 =>
          simpa [hf] using firstGE_mem _ _ _ hf

theorem get_of_selPos (m : HMap) (key : String) (p : Nat)
    (hp : HMap.selPos m key = some p) :
    HMap.Get m key = (lookupNat m.hashMap p).getD "" := by
  obtain ⟨r, f, ks, mp⟩ := m
  cases ks with
  | nil => simp [HMap.selPos] at hp
  | cons x xs =>
      rw [selPos_cons] at hp
      injection hp with hp
      rw [get_cons, hp]

theorem get_mem_getAll (m : HMap) (key : String) (hInv : RingInv m)
    (hne : m.keys ≠ []) : HMap.Get m key ∈ HMap.GetAll m := by
  have hsel : ∃ p, HMap.selPos m key = some p := by
    obtain ⟨r, f, ks, mp⟩ := m
    cases ks with
    | nil => simp at hne
    | cons x xs => exact ⟨_, selPos_cons r f x xs mp key⟩
  obtain ⟨p, hp⟩ := hsel
  have hmem : p ∈ m.keys := selPos_mem m key p hp
  have hsome : (lookupNat m.hashMap p).isSome = true :=
    (ringInv_iff m hInv p).mp hmem
  cases hl : lookupNat m.hashMap p with
  | none =>
      rw [hl] at hsome
      simp at hsome
  | some v =>
      rw [get_of_selPos m key p hp, hl]
      exact mem_getAll_of_mem m p v (lookupNat_mem _ _ _ hl)

/-! ### Claim C5 -/

/-- `Get` only reads the position array, the position map and the hash. -/
theorem get_congr (m1 m2 : HMap) (hk : m1.keys = m2.keys)
    (hm : m1.hashMap = m2.hashMap) (hh : m1.hash = m2.hash) :
    ∀ key, HMap.Get m1 key = HMap.Get m2 key := by
  intro key
  unfold HMap.Get
  rw [hk, hm, hh]

/-- The ring of the repository's own `TestHashing`: replicas 3, parse-as-
integer hash, nodes "6", "4", "2". -/
def ringA : HMap := HMap.Add (HMap.new 3 parseHash) ["6", "4", "2"]

/-- `ringA` after adding node "8" and removing it again. -/
def ringB : HMap := HMap.Remove (HMap.Add ringA ["8"]) "8"


/-- On a sorted position array, filtering out positions other than the
selected one leaves the selection unchanged. -/
theorem sel_filter_stable (x : Nat) (xs : List Nat) (h : Nat)
    (q : Nat → Bool)
    (hs : (x :: xs).Pairwise (· ≤ ·)) (p : Nat)
    (hp : (firstGE (x :: xs) h).getD x = p) (hqp : q p = true) :
    ∃ y ys, (x :: xs).filter q = y :: ys ∧
      (firstGE (y :: ys) h).getD y = p := by
  have hpmem : p ∈ x :: xs := by
    cases hf : firstGE (x :: xs) h with
    | none =>
        rw [hf] at hp
        simp only [Option.getD_none] at hp
        subst hp
        exact List.mem_cons_self _ _
    | some p0 =>
        rw [hf] at hp
        simp only [Option.getD_some] at hp
        subst hp
        exact firstGE_mem _ _ _ hf
  have hpfil : p ∈ (x :: xs).filter q :=
    List.mem_filter.mpr ⟨hpmem, hqp⟩
  cases hfil : (x :: xs).filter q with
  | nil =>
      rw [hfil] at hpfil
      simp at hpfil
  | cons y ys =>
      refine ⟨y, ys, rfl, ?_⟩
      rw [hfil] at hpfil
      have hsorted : (y :: ys).Pairwise (· ≤ ·) := by
        rw [← hfil]
        exact List.Pairwise.filter q hs
      cases hf : firstGE (x :: xs) h with
      | some p0 =>
          rw [hf] at hp
          simp only [Option.getD_some] at hp
          have hfe : firstGE (y :: ys) h = some p0 := by
            refine firstGE_eq_some _ h p0 hsorted ?_
              (firstGE_le _ _ _ hf) ?_
            · rw [hp]
              exact hpfil
            · intro z hz hhz
              have hzmem : z ∈ x :: xs := by
                have : z ∈ (x :: xs).filter q := by
                  rw [hfil]
                  exact hz
                exact List.mem_of_mem_filter this
              exact firstGE_min _ _ _ hs hf z hzmem hhz
          rw [hfe]
          simpa using hp
      | none =>
          rw [hf] at hp
          simp only [Option.getD_none] at hp
          have hfe : firstGE (y :: ys) h = none := by
            rw [firstGE_none_iff]
            intro z hz
            have hzmem : z ∈ x :: xs := by
              have : z ∈ (x :: xs).filter q := by
                rw [hfil]
                exact hz
              exact List.mem_of_mem_filter this
            exact (firstGE_none_iff _ _).mp hf z hzmem
          rw [hfe]
          have hyx : y = x := by
            have hqx : q x = true := by
              rw [← hp] at hqp
              exact hqp
            have : (x :: xs).filter q = x :: xs.filter q := by
              rw [List.filter_cons, if_pos hqx]
            rw [this] at hfil
            exact (List.cons.injEq _ _ _ _).mp hfil.symm |>.1
          simp only [Option.getD_none]
          rw [hyx]
          exact hp

/-- Removing a node does not change `Get` for a key whose selected position
is not one of the removed node's virtual positions. -/
theorem get_stable (m : HMap) (id key : String) (p : Nat)
    (hInv : RingInv m) (hp : HMap.selPos m key = some p)
    (hnr : p ∉ HMap.idHashes m id) :
    HMap.Get (HMap.Remove m id) key = HMap.Get m key := by
  have hiff := ringInv_iff m hInv
  have hsorted : m.keys.Pairwise (· ≤ ·) := hInv.2.1
  have hrw := remove_spec m id hInv.1 hiff
  obtain ⟨r, f, ks, mp⟩ := m
  cases ks with
  | nil => simp [HMap.selPos] at hp
  | cons x xs =>
      rw [selPos_cons] at hp
      injection hp with hp
      have hqp : (fun z =>
          !(decide (z ∈ HMap.idHashes (HMap.mk r f (x :: xs) mp) id))) p
            = true := by
        simp [hnr]
      obtain ⟨y, ys, hfil, hsel⟩ :=
        sel_filter_stable x xs (f key)
          (fun z =>
            !(decide (z ∈ HMap.idHashes (HMap.mk r f (x :: xs) mp) id)))
          hsorted p hp hqp
      rw [hrw]
      show HMap.Get (HMap.mk r f ((x :: xs).filter _)
        ((HMap.idHashes (HMap.mk r f (x :: xs) mp) id).foldl deleteNat mp))
        key = _
      rw [hfil, get_cons, hsel, get_cons, hp, lookup_deleteFold]
      rw [if_neg hnr]

theorem addHashes_single (m : HMap) (id : String) :
    HMap.addHashes m [id] = HMap.idHashes m id := by
  simp [HMap.addHashes]

theorem add_single_map (m : HMap) (id : String) :
    (HMap.Add m [id]).hashMap =
      (HMap.idHashes m id).foldl (fun mp h => setNat mp h id) m.hashMap := by
  rw [add_def]
  show (List.foldl HMap.addOne m [id]).hashMap = _
  rw [List.foldl_cons, List.foldl_nil, addOne_char]

/-- Adding a node with fresh, collision-free virtual positions and then
removing it restores the ring exactly. -/
theorem add_remove_cancel (m : HMap) (id : String) (hInv : RingInv m)
    (hnd : (HMap.idHashes m id).Nodup)
    (hfresh : ∀ h ∈ HMap.idHashes m id, h ∉ m.keys) :
    HMap.Remove (HMap.Add m [id]) id = m := by
  obtain ⟨har, hah, hak, ham⟩ := add_spec m [id]
  have hndA : (HMap.addHashes m [id]).Nodup := by
    rw [addHashes_single]
    exact hnd
  have hfreshA : ∀ h ∈ HMap.addHashes m [id], h ∉ m.keys := by
    rw [addHashes_single]
    exact hfresh
  have hInvA : RingInv (HMap.Add m [id]) := inv_add m [id] hInv hndA hfreshA
  have hid : HMap.idHashes (HMap.Add m [id]) id = HMap.idHashes m id :=
    idHashes_congr _ _ hah har id
  have hnone : ∀ h ∈ HMap.idHashes m id, lookupNat m.hashMap h = none := by
    intro h hh
    refine Option.not_isSome_iff_eq_none.mp ?_
    intro hsome
    exact hfresh h hh ((ringInv_iff m hInv h).mpr hsome)
  rw [remove_spec (HMap.Add m [id]) id hInvA.1 (ringInv_iff _ hInvA)]
  refine hmap_ext _ _ har hah ?_ ?_
  · show (HMap.Add m [id]).keys.filter
        (fun x => !(decide (x ∈ HMap.idHashes (HMap.Add m [id]) id)))
      = m.keys
    rw [hid, hak, addHashes_single]
    have hperm : List.Perm
        ((List.insertionSort (· ≤ ·)
            (m.keys ++ HMap.idHashes m id)).filter
          (fun x => !(decide (x ∈ HMap.idHashes m id))))
        ((m.keys ++ HMap.idHashes m id).filter
          (fun x => !(decide (x ∈ HMap.idHashes m id)))) :=
      (List.perm_insertionSort _ _).filter _

    have h1 : m.keys.filter
        (fun x => !(decide (x ∈ HMap.idHashes m id))) = m.keys := by
      refine List.filter_eq_self.mpr ?_
      intro a ha
      have hna : a ∉ HMap.idHashes m id := fun hc => hfresh a hc ha
      simp [hna]
    have h2 : (HMap.idHashes m id).filter
        (fun x => !(decide (x ∈ HMap.idHashes m id))) = [] := by
      rw [List.filter_eq_nil_iff]
      intro a ha
      simp [ha]
    have hsplit : (m.keys ++ HMap.idHashes m id).filter
        (fun x => !(decide (x ∈ HMap.idHashes m id))) = m.keys := by
      rw [List.filter_append, h1, h2, List.append_nil]
    rw [hsplit] at hperm
    exact List.eq_of_perm_of_sorted hperm
      (List.Pairwise.filter _ (List.sorted_insertionSort _ _)) hInv.2.1
  · show (HMap.idHashes (HMap.Add m [id]) id).foldl deleteNat
        (HMap.Add m [id]).hashMap = m.hashMap
    rw [hid, add_single_map,
      setFold_fresh id (HMap.idHashes m id) m.hashMap hnd hnone]
    exact deleteFold_cancel id (HMap.idHashes m id) m.hashMap hnd hnone

/-- The base ring of the C5 counterexample: replicas 3, parse-as-integer
hash, single node "2". -/
def ringC5 : HMap := HMap.Add (HMap.new 3 parseHash) ["2"]

/-- Claim C5 counterexample: on the ring {"2"} with the parse-as-integer
hash, adding node "12" (whose replica-0 position 12 collides with node
"2"'s replica-1 position) and removing it again does NOT restore the prior
mapping: key "11" mapped to "2" before and to the sentinel "" after. -/
theorem claimC5_counterexample :
    HMap.Get (HMap.Remove (HMap.Add ringC5 ["12"]) "12") "11" ≠
      HMap.Get ringC5 "11" := by
  decide

/-- Claim C5 (amended): on a well-formed ring, removing one node changes
`Get(k)` only for keys whose selected ring position is one of that node's
virtual positions — for every other key the result is unchanged; and
`Add(n)` followed by `Remove(n)` restores the prior mapping for every key
provided `n`'s virtual positions are pairwise distinct and collision-free
with the existing ring. Without the collision-freedom proviso the
restoration fails. -/
theorem claimC5_remove_locality (m : HMap) (id key : String) (p : Nat)
    (hInv : RingInv m) :
    (HMap.selPos m key = some p → p ∉ HMap.idHashes m id →
      HMap.Get (HMap.Remove m id) key = HMap.Get m key) ∧
    ((HMap.idHashes m id).Nodup →
      (∀ h ∈ HMap.idHashes m id, h ∉ m.keys) →
      ∀ k2, HMap.Get (HMap.Remove (HMap.Add m [id]) id) k2 =
        HMap.Get m k2) := by
  refine ⟨fun hp hnr => get_stable m id key p hInv hp hnr, ?_⟩
  intro hnd hfresh k2
  rw [add_remove_cancel m id hInv hnd hfresh]

/-- Claim C5 witness: on the ring {"2","4","6"} (replicas 3, parse hash),
removing "6" does not move key "23" (selected position 24 belongs to "4"),
and adding-then-removing "8" leaves every lookup unchanged. -/
theorem claimC5_witness :
    RingInv ringA ∧
    HMap.selPos ringA "23" = some 24 ∧
    (24 : Nat) ∉ HMap.idHashes ringA "6" ∧
    HMap.Get (HMap.Remove ringA "6") "23" = HMap.Get ringA "23" ∧
    (HMap.idHashes ringA "8").Nodup ∧
    (∀ h ∈ HMap.idHashes ringA "8", h ∉ ringA.keys) ∧
    HMap.Get (HMap.Remove (HMap.Add ringA ["8"]) "8") "23" =
      HMap.Get ringA "23" :=
  ⟨by decide, by decide, by decide,
   (claimC5_remove_locality ringA "6" "23" 24 (by decide)).1
      (by decide) (by decide),
   by decide, by decide,
   (claimC5_remove_locality ringA "8" "23" 24 (by decide)).2
      (by decide) (by decide) "23"⟩

/-! ### Claim C6 -/

/-- Claim C6: an empty ring returns the sentinel `""` for every key; on the
concrete ring with nodes {"2","4","6"}, replicas 3 and the parse-as-integer
hash, `Get("23")` selects the first position `≥ 23` (24) and returns "4";
and `Add("8")` followed by `Remove("8")` restores the position array and
position map exactly, hence the mapping of every key. -/
theorem claimC6_get_concrete :
    (∀ (r : Nat) (f : String → Nat) (key : String),
      HMap.Get (HMap.new r f) key = "") ∧
    HMap.Get ringA "23" = "4" ∧
    ringB.keys = ringA.keys ∧
    ringB.hashMap = ringA.hashMap ∧
    (∀ key, HMap.Get ringB key = HMap.Get ringA key) := by
  have hkeys : ringB.keys = ringA.keys := by decide
  have hmap : ringB.hashMap = ringA.hashMap := by decide
  refine ⟨fun r f key => rfl, by decide, hkeys, hmap, ?_⟩
  exact get_congr ringB ringA hkeys hmap rfl

/-! ### Claim C4 -/

/-- Claim C4 counterexample: with the parse-as-integer hash of the
repository's own test and replicas 3, the script Add("2"); Add("12");
Remove("12") leaves the ring non-empty (node "2" still owns positions and
`GetAll` is nonempty), yet `Get("11")` returns the empty sentinel: node
"12"'s replica-0 position collides with node "2"'s replica-1 position, and
`Remove` deletes the whole map entry while removing only one array copy. -/
theorem claimC4_counterexample :
    (applyOps (HMap.new 3 parseHash)
        [RingOp.add ["2"], RingOp.add ["12"], RingOp.remove "12"]).keys
      ≠ [] ∧
    HMap.GetAll (applyOps (HMap.new 3 parseHash)
        [RingOp.add ["2"], RingOp.add ["12"], RingOp.remove "12"]) = ["2"] ∧
    HMap.Get (applyOps (HMap.new 3 parseHash)
        [RingOp.add ["2"], RingOp.add ["12"], RingOp.remove "12"]) "11"
      = "" := by
  decide

/-- Claim C4 (amended): for every Add/Remove script whose `Add` calls only
ever introduce fresh, pairwise distinct virtual positions (no hash
collisions), if the resulting ring is non-empty then `Get(key)` returns a
node currently on the ring (a member of `GetAll`) — in particular not the
empty sentinel whenever the empty string is not itself a node id — and
`Get` is a pure function of the ring and the key, so repeated calls under
the same membership agree. Without the collision-freedom condition the code
can return the sentinel on a non-empty ring. -/
theorem claimC4_ring_get (r : Nat) (f : String → Nat) (ops : List RingOp)
    (key : String)
    (hv : validOps (HMap.new r f) ops = true)
    (hne : (applyOps (HMap.new r f) ops).keys ≠ []) :
    HMap.Get (applyOps (HMap.new r f) ops) key ∈
      HMap.GetAll (applyOps (HMap.new r f) ops) ∧
    ("" ∉ HMap.GetAll (applyOps (HMap.new r f) ops) →
      HMap.Get (applyOps (HMap.new r f) ops) key ≠ "") := by
  have hInv : RingInv (applyOps (HMap.new r f) ops) :=
    inv_applyOps ops (HMap.new r f) (inv_new r f) hv
  have hmem := get_mem_getAll (applyOps (HMap.new r f) ops) key hInv hne
  refine ⟨hmem, ?_⟩
  intro hno hcontra
  rw [hcontra] at hmem
  exact hno hmem

/-- Claim C4 witness: the collision-free ring {"2","4","6"} with replicas 3
under the parse-as-integer hash. -/
theorem claimC4_witness :
    validOps (HMap.new 3 parseHash) [RingOp.add ["2", "4", "6"]] = true ∧
    (applyOps (HMap.new 3 parseHash) [RingOp.add ["2", "4", "6"]]).keys
      ≠ [] ∧
    HMap.Get (applyOps (HMap.new 3 parseHash) [RingOp.add ["2", "4", "6"]])
        "23" ∈
      HMap.GetAll
        (applyOps (HMap.new 3 parseHash) [RingOp.add ["2", "4", "6"]]) :=
  ⟨by decide, by decide,
   (claimC4_ring_get 3 parseHash [RingOp.add ["2", "4", "6"]] "23"
      (by decide) (by decide)).1⟩

/-! ### Claim C10 -/

/-- Claim C10: `FSM.Restore` clears the storage engine before decoding, so
on a decode failure it returns the decode error with the engine left empty —
the pre-restore contents are not preserved. -/
theorem claimC10_restore_not_atomic (s : Store) (e : String) (now : Nat) :
    FSM.Restore s (Except.error e) = (Except.error e, []) ∧
    MemoryStorage.Keys (FSM.Restore s (Except.error e)).2 now = [] ∧
    (∀ k, lookupKV (FSM.Restore s (Except.error e)).2 k = none) :=
  ⟨rfl, rfl, fun _ => rfl⟩

end KVStore
